import Mathlib

/-! Verification of the linkedin-backend repository's core logic.
The two source files `linkedin_profile_finder.py` (query building, text
matching, URL normalization, candidate scoring, discovery orchestration)
and `main.py` (heuristic metadata extraction) are shallowly embedded:
Python strings become `List Char`, Python float scores become exact
fixed-point hundredths, optional values become `Option`, and code that
can raise becomes `Except` / `Option`.  ASCII behaviour of Python's `str.lower`,
`str.strip` and the `\s` regex class is modelled (all strings handled
by the program are ASCII). -/

namespace LinkedInBackend

abbrev Str : Type := List Char

/-- ASCII part of Python's whitespace class `\s` (also used by `str.strip`). -/
def isWs (c : Char) : Bool :=
  c == ' ' || c == '\t' || c == '\n' || c == '\r' || c == '\x0b' || c == '\x0c'

/-- Python `s.lower()` (ASCII). -/
def lowerStr (l : Str) : Str := l.map Char.toLower

/-- Python substring test `pat in l`. -/
def occursIn (pat : Str) : Str → Bool
  | [] => pat.isEmpty
  | c :: cs => (List.take pat.length (c :: cs) == pat) || occursIn pat cs

/-- Python `l.split(sep, 1)`: split at the first occurrence of `sep`
(`none` when `sep` does not occur). -/
def splitOnce (sep : Str) : Str → Option (Str × Str)
  | [] => if sep.isEmpty then some ([], []) else none
  | c :: cs =>
    if List.take sep.length (c :: cs) == sep then
      some ([], List.drop sep.length (c :: cs))
    else
      (splitOnce sep cs).map (fun ab => (c :: ab.1, ab.2))

theorem splitOnce_eq {sep : Str} :
    ∀ {l a b : Str}, splitOnce sep l = some (a, b) → l = a ++ sep ++ b := by
  intro l
  induction l with
  | nil =>
    intro a b h
    by_cases hs : sep.isEmpty <;> simp [splitOnce, hs] at h
    obtain ⟨h1, h2⟩ := h
    subst h1; subst h2
    simpa [List.isEmpty_iff] using hs
  | cons c cs ih =>
    intro a b h
    by_cases hp : List.take sep.length (c :: cs) == sep
    · rw [splitOnce, if_pos hp] at h
      obtain ⟨h1, h2⟩ := Prod.mk.injEq .. ▸ (Option.some.injEq .. ▸ h)
      subst h1; subst h2
      have := eq_of_beq hp
      conv_lhs => rw [← List.take_append_drop sep.length (c :: cs)]
      rw [this]; simp
    · rw [splitOnce, if_neg hp] at h
      match h2 : splitOnce sep cs with
      | none => rw [h2] at h; simp at h
      | some (a1, b1) =>
        rw [h2] at h
        simp at h
        obtain ⟨h3, h4⟩ := h
        subst h3; subst h4
        simpa using ih h2

theorem splitOnce_some_length {sep : Str} (hs : ¬ sep = []) {l a b : Str}
    (h : splitOnce sep l = some (a, b)) : b.length < l.length := by
  have := splitOnce_eq h
  subst this
  have : 0 < sep.length := List.length_pos.mpr hs
  simp [List.length_append]
  omega

/-- Worker for `replaceAll`; by `splitOnce_some_length` the remainder
shrinks at every step, so `l.length` is enough fuel and the fuelled
function computes Python's `replace` exactly. -/
def replaceAllGo (pat repl : Str) : ℕ → Str → Str
  | 0, l => l
  | fuel + 1, l =>
    match splitOnce pat l with
    | none => l
    | some (a, b) => a ++ repl ++ replaceAllGo pat repl fuel b

/-- Python `l.replace(pat, repl)` (all non-overlapping occurrences,
left to right). -/
def replaceAll (pat repl : Str) (l : Str) : Str :=
  if pat.isEmpty then l else replaceAllGo pat repl l.length l

/-- Worker for `splitAll`, fuelled like `replaceAllGo`. -/
def splitAllGo (sep : Str) : ℕ → Str → List Str
  | 0, l => [l]
  | fuel + 1, l =>
    match splitOnce sep l with
    | none => [l]
    | some (a, b) => a :: splitAllGo sep fuel b

/-- Python `l.split(sep)` (all occurrences). -/
def splitAll (sep : Str) (l : Str) : List Str :=
  if sep.isEmpty then [l] else splitAllGo sep l.length l

/-- One pass of `re.sub(r"\s+", " ", s)`: the flag records whether the
previous character was whitespace (in which case further whitespace is
swallowed by the same run). -/
def collapseGo : Bool → Str → Str
  | _, [] => []
  | prevWs, c :: cs =>
    if isWs c then
      if prevWs then collapseGo true cs else ' ' :: collapseGo true cs
    else c :: collapseGo false cs

/-- `re.sub(r"\s+", " ", s)`. -/
def collapseWs (l : Str) : Str := collapseGo false l

/-- Remove the longest suffix of characters satisfying `p`. -/
def dropEndWhile (p : Char → Bool) : Str → Str
  | [] => []
  | c :: cs =>
    let r := dropEndWhile p cs
    if r.isEmpty then (if p c then [] else [c]) else c :: r

/-- Python `s.strip()` (ASCII whitespace). -/
def strip (l : Str) : Str := dropEndWhile isWs (l.dropWhile isWs)

/-- `re.sub(r"\s+", " ", s).strip()`, the query post-processing. -/
def collapseAndTrim (l : Str) : Str := strip (collapseWs l)

/-- Python `" ".join(parts)`. -/
def joinSpace : List Str → Str
  | [] => []
  | [x] => x
  | x :: xs => x ++ ' ' :: joinSpace xs

/-! ## Embedding of `urllib.parse.urlparse` / `urlunparse`
(the parts exercised by `normalize_linkedin_profile_url`).
Modelled after CPython's `urlsplit`: the input is first sanitized
(leading C0-control/space characters stripped, tab/CR/LF removed),
then the scheme is split at the first `:` when the prefix is a valid
scheme, the netloc is read after `//` up to the first `/`, `?` or `#`,
the fragment is split at the first `#`, the query at the first `?`,
and `urlparse` finally splits the params at a `;` in the last path
segment.  A mismatched `[`/`]` in the netloc raises `ValueError` in
CPython; this is modelled by returning `none`. -/

def isC0OrSpace (c : Char) : Bool := c.toNat ≤ 32

def isUnsafeUrlByte (c : Char) : Bool := c == '\t' || c == '\r' || c == '\n'

def cleanUrl (l : Str) : Str :=
  (l.dropWhile isC0OrSpace).filter (fun c => !isUnsafeUrlByte c)

def schemeChar (c : Char) : Bool :=
  c.isAlpha || c.isDigit || c == '+' || c == '-' || c == '.'

def headIsAlpha : Str → Bool
  | [] => false
  | c :: _ => c.isAlpha

def notNetlocEnd (c : Char) : Bool := !(c == '/' || c == '?' || c == '#')

structure ParsedUrl where
  scheme : Str
  netloc : Str
  path : Str
  params : Str
  query : Str
  fragment : Str
  deriving DecidableEq

/-- Scheme stage of `urlsplit`: split at the first `:` when the prefix
is a non-empty valid scheme (first character a letter, all characters
scheme characters); the scheme is lowercased. -/
def splitScheme (url : Str) : Str × Str :=
  match splitOnce [':'] url with
  | some (pre, post) =>
    if !pre.isEmpty && headIsAlpha pre && pre.all schemeChar then
      (lowerStr pre, post)
    else ([], url)
  | none => ([], url)

/-- Netloc stage (`_splitnetloc`): after `//`, the netloc runs to the
first `/`, `?` or `#`. -/
def splitNetloc (r1 : Str) : Str × Str :=
  if List.take 2 r1 == ['/', '/'] then
    (List.takeWhile notNetlocEnd (List.drop 2 r1),
     List.dropWhile notNetlocEnd (List.drop 2 r1))
  else ([], r1)

/-- Fragment stage: split at the first `#`. -/
def splitFragment (r2 : Str) : Str × Str :=
  match splitOnce ['#'] r2 with
  | some (a, b) => (a, b)
  | none => (r2, [])

/-- Query stage: split at the first `?`. -/
def splitQuery (r3 : Str) : Str × Str :=
  match splitOnce ['?'] r3 with
  | some (a, b) => (a, b)
  | none => (r3, [])

/-- `urlsplit` (without params handling); `none` models the `ValueError`
raised on a netloc with mismatched brackets. -/
def urlsplitE (url0 : Str) : Option (Str × Str × Str × Str × Str) :=
  let url := cleanUrl url0
  let s1 := splitScheme url
  let s2 := splitNetloc s1.2
  if s2.1.elem '[' != s2.1.elem ']' then none
  else
    let s3 := splitFragment s2.2
    let s4 := splitQuery s3.1
    some (s1.1, s2.1, s4.1, s4.2, s3.2)

/-- Split `p` as (everything up to and including the last `/`, rest).
When `p` has no `/` the first component is empty. -/
def afterLastSlash : Str → Str × Str
  | [] => ([], [])
  | c :: cs =>
    if '/' ∈ cs then
      ((afterLastSlash cs).1.cons c, (afterLastSlash cs).2)
    else if c == '/' then ([c], cs)
    else ([], c :: cs)

/-- CPython `_splitparams`: split the params at the first `;` occurring
in the last path segment. -/
def splitparams (p : Str) : Str × Str :=
  if '/' ∈ p then
    match splitOnce [';'] (afterLastSlash p).2 with
    | none => (p, [])
    | some (x, y) => ((afterLastSlash p).1 ++ x, y)
  else
    match splitOnce [';'] p with
    | none => (p, [])
    | some (x, y) => (x, y)

def urlparse (url : Str) : Option ParsedUrl :=
  match urlsplitE url with
  | none => none
  | some (scheme, netloc, path, query, fragment) =>
    if ';' ∈ path then
      some ⟨scheme, netloc, (splitparams path).1, (splitparams path).2, query, fragment⟩
    else
      some ⟨scheme, netloc, path, [], query, fragment⟩

/-- CPython `urlunparse` restricted to string components. -/
def urlunparse (scheme netloc path params query fragment : Str) : Str :=
  let u1 := if params.isEmpty then path else path ++ ';' :: params
  let u2 :=
    if !netloc.isEmpty || (!u1.isEmpty && List.take 2 u1 == ['/', '/']) then
      '/' :: '/' :: (netloc ++
        (if !u1.isEmpty && !(List.take 1 u1 == ['/']) then '/' :: u1 else u1))
    else u1
  let u3 := if scheme.isEmpty then u2 else scheme ++ ':' :: u2
  let u4 := if query.isEmpty then u3 else u3 ++ '?' :: query
  if fragment.isEmpty then u4 else u4 ++ '#' :: fragment

/-! ## `normalize_linkedin_profile_url` -/

/-- The case-insensitive profile-path marker of
`_PROFILE_RE = re.compile(r"^/(in|pub)/[^/]+/?$", re.IGNORECASE)`:
returns the marker prefix (`/in/` or `/pub/`, case preserved) and the
remainder of the path. -/
def markerSplit : Str → Option (Str × Str)
  | c0 :: c1 :: c2 :: rest =>
    if c0 == '/' then
      if (c1 == 'i' || c1 == 'I') && (c2 == 'n' || c2 == 'N') then
        match rest with
        | c3 :: r => if c3 == '/' then some ([c0, c1, c2, c3], r) else none
        | [] => none
      else if (c1 == 'p' || c1 == 'P') && (c2 == 'u' || c2 == 'U') then
        match rest with
        | c3 :: c4 :: r =>
          if (c3 == 'b' || c3 == 'B') && c4 == '/' then
            some ([c0, c1, c2, c3, c4], r)
          else none
        | _ => none
      else none
    else none
  | _ => none

/-- `_PROFILE_RE.match(path)` as a decision procedure: after the marker,
one non-empty slash-free segment and an optional single trailing slash. -/
def profileRe (p : Str) : Bool :=
  match markerSplit p with
  | none => false
  | some (_, rest) =>
    let core := if rest.getLast? == some '/' then rest.dropLast else rest
    !core.isEmpty && core.all (fun c => !(c == '/'))

def sLinkedinDomain : Str := "linkedin.com".toList
def sWwwLinkedin : Str := "www.linkedin.com".toList
def sHttps : Str := "https".toList

/-- `normalize_linkedin_profile_url` from `linkedin_profile_finder.py`. -/
def normalize_linkedin_profile_url (url : Str) : Option Str :=
  match urlparse url with
  | none => none
  | some u =>
    if !occursIn sLinkedinDomain u.netloc then none
    else if !profileRe u.path then none
    else
      some (urlunparse sHttps sWwwLinkedin
        (dropEndWhile (fun c => c == '/') u.path ++ ['/']) [] [] [])

/-! ## Data model and query builders (`linkedin_profile_finder.py`) -/

structure PersonInput where
  full_name : Str
  email : Option Str
  location : Option Str
  title_or_role : Option Str
  company_or_university : Option Str
  deriving DecidableEq

structure SearchResult where
  title : Str
  link : Str
  snippet : Str
  deriving DecidableEq

def sSiteIn : Str := "site:linkedin.com/in".toList
def sSite : Str := "site:linkedin.com".toList
def sQuotedInUrl : Str := "\"linkedin.com/in/\"".toList
def sNegCompany : Str := "-inurl:/company/".toList
def sNegPosts : Str := "-inurl:/posts/".toList
def sNegJobs : Str := "-inurl:/jobs/".toList
def sNegPulse : Str := "-inurl:/pulse/".toList
def sNegLearning : Str := "-inurl:/learning/".toList
def sNegGroups : Str := "-inurl:/groups/".toList
def sNegDirectory : Str := "-inurl:/directory/".toList
def sNegSchool : Str := "-inurl:/school/".toList

def negativeFilters : List Str :=
  [sNegCompany, sNegPosts, sNegJobs, sNegPulse, sNegLearning, sNegGroups,
   sNegDirectory, sNegSchool]

/-- `_quoted_optional_terms`: each present, non-blank optional field,
stripped and double-quoted. -/
def quoted_optional_terms (p : PersonInput) : List Str :=
  [p.company_or_university, p.title_or_role, p.location].filterMap fun t =>
    match t with
    | none => none
    | some t =>
      if !t.isEmpty && !(strip t).isEmpty then some ('"' :: (strip t ++ ['"']))
      else none

def build_query_pass_a (p : PersonInput) : Str :=
  collapseAndTrim (joinSpace
    (sSiteIn :: ('"' :: (strip p.full_name ++ ['"'])) ::
      (quoted_optional_terms p ++ negativeFilters)))

def build_query_pass_b (p : PersonInput) : Str :=
  match p.email with
  | none => []
  | some e => if e.isEmpty then [] else build_query_pass_a p ++ ' ' :: strip e

def build_query_pass_c (p : PersonInput) : Str :=
  collapseAndTrim (joinSpace
    (sSite :: sQuotedInUrl :: ('"' :: (strip p.full_name ++ ['"'])) ::
      (quoted_optional_terms p ++ negativeFilters)))

/-! ## Text matcher -/

/-- `_normalize_text`: lowercase, replace every character outside
`[a-z0-9\s]` by a space, collapse whitespace, trim. -/
def normalize_text (s : Str) : Str :=
  collapseAndTrim ((lowerStr s).map fun c =>
    if ('a' ≤ c && c ≤ 'z') || ('0' ≤ c && c ≤ '9') || isWs c then c else ' ')

def title_contains_full_name (title full_name : Str) : Bool :=
  occursIn (normalize_text full_name) (normalize_text title)

/-! ## Candidate scorer
Python floats are modelled as fixed-point hundredths (ℕ): every
constant in `score_candidate` (0.6, 0.15, 0.35, 0.1, 1.0) is an exact
multiple of 0.01, the accumulated float sums are at least 0.05 apart,
and IEEE rounding (≈1e-16) never changes a comparison at that
granularity, so the fixed-point model produces exactly the orderings
and equalities of the Python floats.  `0.6` is `60`, `1.0` is `100`. -/

def sInMarker : Str := "/in/".toList

def fieldHit (text : Str) : Option Str → Bool
  | none => false
  | some f => !f.isEmpty && occursIn (lowerStr f) text

def score_candidate (p : PersonInput) (r : SearchResult) : ℕ :=
  let text := lowerStr (r.title ++ ' ' :: r.snippet)
  let s1 : ℕ := 60
  let s2 := s1 + (if fieldHit text p.company_or_university then 15 else 0)
  let s3 := s2 + (if fieldHit text p.title_or_role then 15 else 0)
  let s4 := s3 + (if fieldHit text p.location then 15 else 0)
  let s5 := s4 + (match p.email with
    | none => 0
    | some e => if !e.isEmpty && occursIn (lowerStr e) text then 35 else 0)
  let s6 := s5 + (if occursIn sInMarker r.link then 10 else 0)
  min s6 100

/-! ## Candidate extraction pipeline -/

/-- The loop body of `extract_considered_profile_urls`: gate on the
name, normalize the link, score. -/
def considered_candidates (p : PersonInput) (results : List SearchResult) :
    List (ℕ × Str) :=
  results.filterMap fun r =>
    if title_contains_full_name r.title p.full_name then
      match normalize_linkedin_profile_url r.link with
      | some url => if url.isEmpty then none else some (score_candidate p r, url)
      | none => none
    else none

/-- `sorted(urls, key=lambda x: x[0], reverse=True)`: Python's sort is
stable, and with `reverse=True` equal keys still keep their original
order; stable descending insertion sort is the unique such function. -/
def scoreOrder (a b : ℕ × Str) : Prop := b.1 ≤ a.1

instance : DecidableRel scoreOrder := fun a b =>
  inferInstanceAs (Decidable (b.1 ≤ a.1))

def sortByScoreDesc (l : List (ℕ × Str)) : List (ℕ × Str) :=
  List.insertionSort scoreOrder l

/-- The `seen`-set dedupe loop: keep the first occurrence of each URL. -/
def dedupeGo (seen : List Str) : List Str → List Str
  | [] => []
  | u :: us => if u ∈ seen then dedupeGo seen us else u :: dedupeGo (u :: seen) us

def extract_considered_profile_urls (p : PersonInput)
    (results : List SearchResult) : List Str :=
  dedupeGo [] ((sortByScoreDesc (considered_candidates p results)).map Prod.snd)

/-! ## Discovery orchestrator (`linkedin_profile_finder`)
The query loop is modelled by `runQueries`, which also returns the
list of queries actually sent to the provider (in order), so that
call-counting claims can be stated. -/

def runQueries (search : Str → List SearchResult) :
    List Str → List Str × List SearchResult
  | [] => ([], [])
  | q :: qs =>
    if q.isEmpty then runQueries search qs
    else if (search q).isEmpty then
      ((runQueries search qs).1.cons q, (runQueries search qs).2)
    else ([q], search q)

def blankName (fn : Str) : Bool := fn.isEmpty || (strip fn).isEmpty

def buildQueries (p : PersonInput) : List Str :=
  [build_query_pass_a p, build_query_pass_b p, build_query_pass_c p]

def sFullNameRequired : Str := "full_name is required".toList

def linkedin_profile_finder (search : Str → List SearchResult)
    (full_name : Str)
    (email location title_or_role company_or_university : Option Str) :
    Except Str (List Str) :=
  if blankName full_name then .error sFullNameRequired
  else
    let p : PersonInput :=
      ⟨full_name, email, location, title_or_role, company_or_university⟩
    .ok (extract_considered_profile_urls p (runQueries search (buildQueries p)).2)

/-- The queries the orchestrator sends to the provider, in order (empty
when it fails fast on a blank name, before any external call). -/
def finderCalls (search : Str → List SearchResult) (full_name : Str)
    (email location title_or_role company_or_university : Option Str) :
    List Str :=
  if blankName full_name then []
  else
    let p : PersonInput :=
      ⟨full_name, email, location, title_or_role, company_or_university⟩
    (runQueries search (buildQueries p)).1

/-! ## Metadata extractor (`main.py`)
A raw SerpAPI result is modelled by its title, snippet and the
rich-snippet extensions list reached through
`rich_snippet.top.extensions or rich_snippet.extensions or []`.
Code that can raise `IndexError` is embedded in `Except Unit`. -/

structure RawResult where
  title : Str
  snippet : Str
  extensions : List Str
  deriving DecidableEq

deriving instance DecidableEq for Except

def sPipeLinkedIn : Str := " | LinkedIn".toList
def sPipeLinkedInB : Str := "| LinkedIn".toList
def sDash : Str := " - ".toList
def sAt : Str := " at ".toList
def sBasedIn : Str := "based in ".toList
def sDot : Str := ".".toList
def sPipe : Str := "|".toList
def sBullet : Str := " • ".toList
def sMiddot : Str := " · ".toList
def sLinkedinWord : Str := "linkedin".toList

/-- `extract_full_name` from `main.py`. -/
def extract_full_name (title : Str) : Str :=
  let t1 := strip (replaceAll sPipeLinkedInB [] (replaceAll sPipeLinkedIn [] title))
  match splitOnce sDash t1 with
  | some (a, _) => strip a
  | none => strip t1

/-- `extract_from_extensions` from `main.py`: returns (company, location). -/
def extract_from_extensions (ex : List Str) : Option Str × Option Str :=
  if ex.isEmpty then (none, none)
  else if 3 ≤ ex.length then
    (some (strip ((ex.dropLast.getLast?).getD [])),
     some (strip ((ex.getLast?).getD [])))
  else if ex.length = 2 then
    let mc := strip (ex.getD 1 [])
    if mc.elem ',' || occursIn sBullet mc || occursIn sMiddot mc then
      (none, some mc)
    else (some mc, none)
  else (none, none)

/-- Python truthiness of an optional string: `if x:` rejects `None`
and the empty string. -/
def orNonEmpty : Option Str → Option Str
  | none => none
  | some c => if c.isEmpty then none else some c

/-- The sequential separator cuts
`for sep in [".", "|", " - ", " • ", " · "]: if sep in s: s = s.split(sep, 1)[0]`. -/
def cutSeps (s : Str) : Str :=
  List.foldl
    (fun acc sep =>
      match splitOnce sep acc with
      | some (a, _) => a
      | none => acc)
    s [sDot, sPipe, sDash, sBullet, sMiddot]

/-- `extract_company_and_location` from `main.py`.  The final
location fallback tests `"based in "` against the lowercased snippet
but then indexes `snippet.split("based in ", 1)[1]` on the original
snippet; when the occurrence exists only in the lowercased copy the
index is out of range, which is the `Except.error ()` case. -/
def extract_company_and_location (r : RawResult) : Except Unit (Option Str × Option Str) :=
  let pair := extract_from_extensions r.extensions
  let company0 := orNonEmpty pair.1
  let location0 := orNonEmpty pair.2
  let company1 :=
    match company0 with
    | some c => some c
    | none =>
      if occursIn sDash r.title then
        let cleaned := replaceAll sPipeLinkedInB [] (replaceAll sPipeLinkedIn [] r.title)
        let parts := ((splitAll sDash cleaned).map strip).filter (fun x => !x.isEmpty)
        if 3 ≤ parts.length then
          let cand := (parts.getLast?).getD []
          if !cand.isEmpty && !(List.take 8 (lowerStr cand) == sLinkedinWord) then
            some cand
          else none
        else none
      else none
  let company2 :=
    match company1 with
    | some c => some c
    | none =>
      if occursIn sAt r.snippet then
        match splitOnce sAt r.snippet with
        | some (_, after) =>
          let cand := strip (cutSeps after)
          if !cand.isEmpty then some cand else none
        | none => none
      else none
  match location0 with
  | some lo => Except.ok (company2, some lo)
  | none =>
    if occursIn sBasedIn (lowerStr r.snippet) then
      match splitOnce sBasedIn r.snippet with
      | some (_, after) =>
        let cand := strip (cutSeps after)
        Except.ok (company2, if !cand.isEmpty then some cand else none)
      | none => Except.error ()
    else Except.ok (company2, none)

structure LinkedInMetadata where
  full_name : Option Str
  headline : Option Str
  company : Option Str
  location : Option Str
  deriving DecidableEq

/-- The metadata record built by the `/lookup` route of `main.py` from
one chosen raw result (name, headline, company, location). -/
def extract_metadata (r : RawResult) : Except Unit LinkedInMetadata :=
  match extract_company_and_location r with
  | .error e => .error e
  | .ok (company, location) =>
    let hl := if r.snippet.isEmpty then r.title else r.snippet
    .ok ⟨orNonEmpty (some (extract_full_name r.title)), orNonEmpty (some hl),
         company, location⟩

/-! ## Canonical-form predicates for discovery output URLs -/

def pfxCanon : Str := "https://www.linkedin.com".toList
def sPubMarker : Str := "/pub/".toList

def noBadPathChar (c : Char) : Bool :=
  !(c == '?' || c == '#' || c == '\t' || c == '\r' || c == '\n')

/-- A canonical profile path: matches `_PROFILE_RE`, ends in exactly one
slash, and contains no query/fragment delimiter or removed byte. -/
def canonicalPath (p : Str) : Bool :=
  profileRe p && (p.getLast? == some '/') && p.all noBadPathChar

/-- Canonical output form, marker matched case-insensitively (the code
preserves the case of the path it was given). -/
def canonicalFormCI (u : Str) : Bool :=
  (List.take 24 u == pfxCanon) && canonicalPath (List.drop 24 u)

/-- The spec's stricter claim: canonical form with a lowercase `/in/` or
`/pub/` marker. -/
def canonicalFormLower (u : Str) : Bool :=
  canonicalFormCI u &&
    (List.take 4 (List.drop 24 u) == sInMarker ||
     List.take 5 (List.drop 24 u) == sPubMarker)

/-! ## Concrete inputs used by the claims -/

def sJaneDoe : Str := "Jane Doe".toList
def sOneSpace : Str := " ".toList
def pJane : PersonInput := ⟨sJaneDoe, none, none, none, none⟩

def urlBareJane : Str := "https://linkedin.com/in/janedoe".toList
def urlCanonJane : Str := "https://www.linkedin.com/in/janedoe/".toList
def urlExampleCom : Str := "https://www.example.com/in/janedoe/".toList
def urlJaneExtra : Str := "https://linkedin.com/in/janedoe/extra".toList
def urlJaneQuery : Str := "https://linkedin.com/in/janedoe?trk=people".toList
def urlJaneFrag : Str := "https://linkedin.com/in/janedoe#experience".toList
def urlJaneUC : Str := "https://linkedin.com/IN/JaneDoe".toList
def urlCanonJaneUC : Str := "https://www.linkedin.com/IN/JaneDoe/".toList

def rPassC : SearchResult := ⟨sJaneDoe, urlBareJane, []⟩
def searchPassC (q : Str) : List SearchResult :=
  if q == build_query_pass_c pJane then [rPassC] else []
def searchNone : Str → List SearchResult := fun _ => []

def tJaneTitle : Str := "Jane Doe | LinkedIn".toList
def tBasedIn : Str := "Head of Sales at Widgets Inc. Based in Austin, TX.".toList
def tBasedInLower : Str := "Head of Sales at Widgets Inc. based in Austin, TX.".toList
def rBasedIn : RawResult := ⟨tJaneTitle, tBasedIn, []⟩
def rBasedInLower : RawResult := ⟨tJaneTitle, tBasedInLower, []⟩
def sWidgets : Str := "Widgets Inc".toList
def sAustinTX : Str := "Austin, TX".toList

def sDoubleEmail : Str := "a  b@c.com".toList
def pDoubleEmail : PersonInput := ⟨sJaneDoe, some sDoubleEmail, none, none, none⟩
def sTwoSpaces : Str := "  ".toList

/-! ## Claim theorems -/

/-- C1: the claim says the metadata extractor never raises, and in
particular that the case-insensitive `"based in "` location fallback
completes whatever the snippet's casing.  The code checks the marker
against the lowercased snippet but indexes `split(...)[1]` on the
original snippet, so a snippet containing only `"Based in "` (the
spec's own §8 example) raises `IndexError`; lowercasing the marker in
the snippet makes the same input succeed. -/
theorem C1_location_fallback_raises :
    extract_metadata rBasedIn = Except.error () ∧
    extract_company_and_location rBasedIn = Except.error () ∧
    extract_company_and_location rBasedInLower =
      Except.ok (some sWidgets, some sAustinTX) :=
  ⟨by decide, by decide, by decide⟩

/-- C7: the three concrete Normalizer examples: wrong domain is
rejected, a bare `linkedin.com/in/janedoe` is canonicalized to the
`https`/`www`/trailing-slash form, and a multi-segment path is
rejected. -/
theorem C7_normalizer_examples :
    normalize_linkedin_profile_url urlExampleCom = none ∧
    normalize_linkedin_profile_url urlBareJane = some urlCanonJane ∧
    normalize_linkedin_profile_url urlJaneExtra = none :=
  ⟨by decide, by decide, by decide⟩

/-- C8: a missing/blank `full_name` makes discovery fail with the
`InvalidInput` error (`ValueError("full_name is required")`) before any
provider call (the call log is empty); a non-blank `full_name` never
raises that error. -/
theorem C8_blank_name (search : Str → List SearchResult) (fn : Str)
    (email location title_or_role company_or_university : Option Str) :
    (blankName fn = true →
      linkedin_profile_finder search fn email location title_or_role
          company_or_university = Except.error sFullNameRequired ∧
        finderCalls search fn email location title_or_role
          company_or_university = []) ∧
    (blankName fn = false →
      ∃ urls, linkedin_profile_finder search fn email location title_or_role
          company_or_university = Except.ok urls) := by
  constructor
  · intro h
    constructor
    · simp [linkedin_profile_finder, h]
    · simp [finderCalls, h]
  · intro h
    refine ⟨extract_considered_profile_urls
      ⟨fn, email, location, title_or_role, company_or_university⟩
      (runQueries search (buildQueries
        ⟨fn, email, location, title_or_role, company_or_university⟩)).2, ?_⟩
    simp [linkedin_profile_finder, h]

set_option maxRecDepth 10000 in
theorem C8_blank_name_witness :
    (linkedin_profile_finder searchNone sOneSpace none none none none =
        Except.error sFullNameRequired ∧
      finderCalls searchNone sOneSpace none none none none = []) ∧
    (∃ urls, linkedin_profile_finder searchNone sJaneDoe none none none none =
        Except.ok urls) :=
  ⟨(C8_blank_name searchNone sOneSpace none none none none).1 (by decide),
   (C8_blank_name searchNone sJaneDoe none none none none).2 (by decide)⟩

set_option maxRecDepth 10000 in
/-- C4 counterexample: the claim says no produced query ever contains a
double space, but Pass B appends the stripped email without
re-collapsing whitespace, so an email with an inner double space
produces a query containing `"  "`. -/
theorem C4_counterexample :
    occursIn sTwoSpaces (build_query_pass_b pDoubleEmail) = true := by decide

set_option maxRecDepth 10000 in
/-- C5 counterexample: the claim says every URL carrying a query string
or fragment is rejected (null), but `urlparse` strips the query and
fragment off the path before the pattern is applied, so both URLs
normalize successfully. -/
theorem C5_counterexample :
    normalize_linkedin_profile_url urlJaneQuery = some urlCanonJane ∧
    normalize_linkedin_profile_url urlJaneFrag = some urlCanonJane :=
  ⟨by decide, by decide⟩

def rJaneUC : SearchResult := ⟨sJaneDoe, urlJaneUC, []⟩

/-- C10 counterexample: the claim requires every discovery output to
have the exact lowercase `/in/`-marker form, but the code preserves the
case of the path, so a raw link `https://linkedin.com/IN/JaneDoe` is
returned as `https://www.linkedin.com/IN/JaneDoe/`, which is not of
the claimed lowercase-marker form. -/
theorem C10_counterexample :
    extract_considered_profile_urls pJane [rJaneUC] = [urlCanonJaneUC] ∧
    canonicalFormLower urlCanonJaneUC = false :=
  ⟨by decide, by decide⟩

set_option maxRecDepth 10000 in
/-- C2: discovery iterates Pass A, Pass B, Pass C in order, skipping
empty queries, calling the provider once per non-empty query, and
stopping at the first non-empty result set; exhausting all queries
yields `ok []` rather than an error; and in the concrete scenario
where the provider is empty for Pass A/Pass B and returns one matching
result for Pass C, discovery returns exactly that canonical URL (the
call log being exactly the Pass A and Pass C queries, Pass B being
skipped for the absent email). -/
theorem C2_discovery_order :
    (∀ (search : Str → List SearchResult) (qs : List Str),
      (∀ q ∈ qs, q ≠ [] → search q = []) →
      runQueries search qs = (qs.filter (fun q => !q.isEmpty), [])) ∧
    (∀ (search : Str → List SearchResult) (l₁ : List Str) (q : Str)
        (l₂ : List Str),
      (∀ x ∈ l₁, x ≠ [] → search x = []) → q ≠ [] → search q ≠ [] →
      runQueries search (l₁ ++ q :: l₂) =
        (l₁.filter (fun x => !x.isEmpty) ++ [q], search q)) ∧
    (∀ (search : Str → List SearchResult) (fn : Str)
        (em lo ro co : Option Str),
      blankName fn = false →
      (∀ q ∈ buildQueries ⟨fn, em, lo, ro, co⟩, search q = []) →
      linkedin_profile_finder search fn em lo ro co = Except.ok []) ∧
    (linkedin_profile_finder searchPassC sJaneDoe none none none none =
        Except.ok [urlCanonJane] ∧
      finderCalls searchPassC sJaneDoe none none none none =
        [build_query_pass_a pJane, build_query_pass_c pJane]) := by
  have hall : ∀ (search : Str → List SearchResult) (qs : List Str),
      (∀ q ∈ qs, q ≠ [] → search q = []) →
      runQueries search qs = (qs.filter (fun q => !q.isEmpty), []) := by
    intro search qs
    induction qs with
    | nil => intro _; rfl
    | cons q qs ih =>
      intro h
      by_cases hq : q = []
      · subst hq
        simpa [runQueries] using ih (fun x hx => h x (List.mem_cons_of_mem _ hx))
      · have hsq : search q = [] := h q (List.mem_cons_self q qs) hq
        have hne : q.isEmpty = false := by
          cases q with
          | nil => exact absurd rfl hq
          | cons a as => rfl
        simp [runQueries, hne, hsq,
          ih (fun x hx => h x (List.mem_cons_of_mem _ hx))]
  refine ⟨hall, ?_, ?_, by decide, by decide⟩
  · intro search l₁ q l₂ h1 hq hsq
    induction l₁ with
    | nil =>
      have hne : q.isEmpty = false := by
        cases q with
        | nil => exact absurd rfl hq
        | cons a as => rfl
      simp [runQueries, hne, hsq]
    | cons x l₁ ih =>
      by_cases hx : x = []
      · subst hx
        simpa [runQueries] using ih (fun y hy => h1 y (List.mem_cons_of_mem _ hy))
      · have hsx : search x = [] := h1 x (List.mem_cons_self x l₁) hx
        have hne : x.isEmpty = false := by
          cases x with
          | nil => exact absurd rfl hx
          | cons a as => rfl
        simp [runQueries, hne, hsx,
          ih (fun y hy => h1 y (List.mem_cons_of_mem _ hy))]
  · intro search fn em lo ro co hbn h
    have h2 : runQueries search (buildQueries ⟨fn, em, lo, ro, co⟩) =
        ((buildQueries ⟨fn, em, lo, ro, co⟩).filter (fun q => !q.isEmpty), []) :=
      hall search _ (fun q hq _ => h q hq)
    simp [linkedin_profile_finder, hbn, h2, extract_considered_profile_urls,
      considered_candidates, sortByScoreDesc, List.insertionSort, dedupeGo]

theorem C2_discovery_order_witness :
    runQueries searchNone [sJaneDoe, []] = ([sJaneDoe], []) :=
  C2_discovery_order.1 searchNone [sJaneDoe, []]
    (fun _ _ _ => rfl)

/-! ## Score formula (spec side), stated over ℚ -/

/-- Spec side: the number of the fields companyOrUniversity,
titleOrRole, location that are present on the person and appear
case-insensitively in the concatenated title and snippet. -/
def matchedFieldCount (p : PersonInput) (r : SearchResult) : ℕ :=
  [p.company_or_university, p.title_or_role, p.location].countP
    (fieldHit (lowerStr (r.title ++ ' ' :: r.snippet)))

/-- Spec side: the person's email is present and appears
case-insensitively in title+snippet. -/
def emailMatches (p : PersonInput) (r : SearchResult) : Bool :=
  match p.email with
  | none => false
  | some e => !e.isEmpty &&
      occursIn (lowerStr e) (lowerStr (r.title ++ ' ' :: r.snippet))

/-- Spec side: the result link contains the literal substring `/in/`. -/
def linkHasInMarker (r : SearchResult) : Bool := occursIn sInMarker r.link

/-- C6: the candidate score equals
`min(1.0, 0.6 + 0.15·fields + 0.35·email + 0.10·link)` and always lies
in `[0.6, 1.0]`.  Scores are embedded as fixed-point hundredths, so
the claim's formula is stated for `score/100 : ℚ`. -/
theorem C6_score_formula (p : PersonInput) (r : SearchResult) :
    (score_candidate p r : ℚ) =
      100 * min 1 ((6 : ℚ)/10
        + (15 : ℚ)/100 * matchedFieldCount p r
        + (35 : ℚ)/100 * (if emailMatches p r then 1 else 0)
        + (1 : ℚ)/10 * (if linkHasInMarker r then 1 else 0)) ∧
    60 ≤ score_candidate p r ∧ score_candidate p r ≤ 100 := by
  rcases hp : p.email with _ | e <;>
    unfold score_candidate matchedFieldCount emailMatches linkHasInMarker <;>
    simp only [hp, List.countP_cons, List.countP_nil, Bool.false_eq_true,
      if_false, ite_false] <;>
    split_ifs <;>
    push_cast [Nat.cast_min] <;>
    norm_num [min_def]

/-! ## Sorting and dedupe lemmas for C3 -/

instance : IsTotal (ℕ × Str) scoreOrder := ⟨fun a b => le_total b.1 a.1⟩

instance : IsTrans (ℕ × Str) scoreOrder := ⟨fun _ _ _ h1 h2 => le_trans h2 h1⟩

/-- Inserting `a` keeps all tied elements after it and leaves the
filtered tie-class of every other score untouched. -/
theorem filter_score_orderedInsert (q : ℕ) (a : ℕ × Str) :
    ∀ l : List (ℕ × Str),
      (List.orderedInsert scoreOrder a l).filter (fun x => x.1 == q) =
        if a.1 == q then a :: l.filter (fun x => x.1 == q)
        else l.filter (fun x => x.1 == q)
  | [] => by
    by_cases h : a.1 = q <;> simp [List.orderedInsert, List.filter_cons, h]
  | b :: l => by
    by_cases hab : scoreOrder a b
    · have hord : List.orderedInsert scoreOrder a (b :: l) = a :: b :: l := by
        simp [List.orderedInsert, hab]
      rw [hord]
      by_cases h : a.1 = q <;> simp [List.filter_cons, h]
    · have hord : List.orderedInsert scoreOrder a (b :: l) =
          b :: List.orderedInsert scoreOrder a l := by
        simp [List.orderedInsert, hab]
      have hlt : a.1 < b.1 := lt_of_not_le hab
      rw [hord]
      by_cases hb : b.1 = q
      · have ha : ¬ a.1 = q := by omega
        simp [List.filter_cons, hb, ha, filter_score_orderedInsert q a l]
      · simp [List.filter_cons, hb, filter_score_orderedInsert q a l]

/-- Stability of the stable descending sort on `insertionSort`. -/
theorem filter_score_insertionSort (q : ℕ) :
    ∀ l : List (ℕ × Str),
      (List.insertionSort scoreOrder l).filter (fun x => x.1 == q) =
        l.filter (fun x => x.1 == q)
  | [] => rfl
  | a :: l => by
    show (List.orderedInsert scoreOrder a
        (List.insertionSort scoreOrder l)).filter (fun x => x.1 == q) = _
    rw [filter_score_orderedInsert q a]
    by_cases h : a.1 = q <;>
      simp [List.filter_cons, h, filter_score_insertionSort q l]

/-- Stability of the stable descending sort: every tie class keeps its
first-seen order. -/
theorem filter_score_sortByScoreDesc (q : ℕ) (l : List (ℕ × Str)) :
    (sortByScoreDesc l).filter (fun x => x.1 == q) =
      l.filter (fun x => x.1 == q) :=
  filter_score_insertionSort q l

/-- `dedupeGo` only consults membership of the seen set. -/
theorem dedupeGo_congr :
    ∀ (l s₁ s₂ : List Str), (∀ u, u ∈ s₁ ↔ u ∈ s₂) →
      dedupeGo s₁ l = dedupeGo s₂ l
  | [], _, _, _ => rfl
  | u :: l, s₁, s₂, h => by
    by_cases hu : u ∈ s₁
    · simp [dedupeGo, hu, (h u).mp hu, dedupeGo_congr l s₁ s₂ h]
    · have hu2 : u ∉ s₂ := fun hx => hu ((h u).mpr hx)
      simp only [dedupeGo, hu, hu2, if_neg]
      exact congrArg (u :: ·)
        (dedupeGo_congr l (u :: s₁) (u :: s₂) (by simp [h _]))

/-- Marking `x` as seen is the same as deleting every later `x`. -/
theorem dedupeGo_filter :
    ∀ (l seen : List Str) (x : Str),
      dedupeGo (x :: seen) l = dedupeGo seen (l.filter (fun y => !(y == x)))
  | [], _, _ => rfl
  | u :: l, seen, x => by
    by_cases hux : u = x
    · subst hux
      simp [dedupeGo, List.filter_cons, dedupeGo_filter l seen u]
    · have hfl : (u :: l).filter (fun y => !(y == x)) =
          u :: l.filter (fun y => !(y == x)) := by
        simp [List.filter_cons, hux]
      rw [hfl]
      by_cases hu : u ∈ seen
      · have hin : u ∈ x :: seen := List.mem_cons_of_mem _ hu
        show (if u ∈ x :: seen then dedupeGo (x :: seen) l
            else u :: dedupeGo (u :: x :: seen) l) =
          (if u ∈ seen then dedupeGo seen (l.filter (fun y => !(y == x)))
            else u :: dedupeGo (u :: seen) (l.filter (fun y => !(y == x))))
        rw [if_pos hin, if_pos hu]
        exact dedupeGo_filter l seen x
      · have hnotin : u ∉ x :: seen := by simp [hux, hu]
        have hswap : dedupeGo (u :: x :: seen) l = dedupeGo (x :: u :: seen) l :=
          dedupeGo_congr l _ _ (by intro v; constructor <;> (intro hv; simp at hv ⊢; tauto))
        show (if u ∈ x :: seen then dedupeGo (x :: seen) l
            else u :: dedupeGo (u :: x :: seen) l) =
          (if u ∈ seen then dedupeGo seen (l.filter (fun y => !(y == x)))
            else u :: dedupeGo (u :: seen) (l.filter (fun y => !(y == x))))
        rw [if_neg hnotin, if_neg hu]
        exact congrArg (u :: ·) (hswap.trans (dedupeGo_filter l (u :: seen) x))

/-- The dedupe keeps the first occurrence: the head survives and all
its later duplicates are removed. -/
theorem dedupeFirst_cons (x : Str) (l : List Str) :
    dedupeGo [] (x :: l) = x :: dedupeGo [] (l.filter (fun y => !(y == x))) := by
  simp [dedupeGo, dedupeGo_filter l [] x]

theorem dedupeGo_sublist : ∀ (l seen : List Str), List.Sublist (dedupeGo seen l) l
  | [], _ => List.Sublist.refl _
  | u :: l, seen => by
    by_cases hu : u ∈ seen
    · simp only [dedupeGo, if_pos hu]
      exact (dedupeGo_sublist l seen).cons u
    · simp only [dedupeGo, if_neg hu]
      exact (dedupeGo_sublist l (u :: seen)).cons₂ u

theorem dedupeGo_avoid :
    ∀ (l seen : List Str), (dedupeGo seen l).Nodup ∧
      ∀ u ∈ dedupeGo seen l, u ∉ seen
  | [], _ => ⟨List.nodup_nil, by simp [dedupeGo]⟩
  | u :: l, seen => by
    by_cases hu : u ∈ seen
    · simpa only [dedupeGo, if_pos hu] using dedupeGo_avoid l seen
    · obtain ⟨hnd, havoid⟩ := dedupeGo_avoid l (u :: seen)
      simp only [dedupeGo, if_neg hu]
      refine ⟨List.nodup_cons.mpr ⟨fun hmem => ?_, hnd⟩, ?_⟩
      · exact havoid u hmem (List.mem_cons_self u seen)
      · intro v hv
        rcases List.mem_cons.mp hv with rfl | hv2
        · exact hu
        · exact fun hvs => havoid v hv2 (List.mem_cons_of_mem _ hvs)

def urlOther : Str := "https://www.linkedin.com/in/other".toList
def urlCanonOther : Str := "https://www.linkedin.com/in/other/".toList
def sAustin : Str := "Austin".toList
def sAcme : Str := "Acme".toList
def sJaneAcme : Str := "Jane Doe - Acme".toList
def sJaneAcmeAustin : Str := "Jane Doe Acme Austin".toList
def urlBareJaneSlash : Str := "https://linkedin.com/in/janedoe/".toList

def pJD : PersonInput := ⟨sJaneDoe, none, some sAustin, none, some sAcme⟩
def rJD1 : SearchResult := ⟨sJaneDoe, urlBareJane, []⟩
def rJD2 : SearchResult := ⟨sJaneAcme, urlOther, []⟩
def rJD3 : SearchResult := ⟨sJaneAcmeAustin, urlBareJaneSlash, []⟩

set_option maxRecDepth 10000 in
/-- C3: after scoring, candidates are sorted descending by score
(`scoreOrder a b` is `b.score ≤ a.score`), the sort is a stable
permutation (every tie class keeps its first-seen order), and the URL
list is deduplicated keeping the first (highest-ranked) occurrence,
hence a duplicate canonical URL collapses to the single entry at the
rank of the higher score — as witnessed concretely by two raw results
normalizing to the same URL with scores 0.70 and 1.00 collapsing to
rank 0, above a 0.85-scored distinct URL. -/
theorem C3_sort_dedupe :
    (∀ (p : PersonInput) (results : List SearchResult),
      List.Perm (sortByScoreDesc (considered_candidates p results))
          (considered_candidates p results) ∧
        List.Sorted scoreOrder (sortByScoreDesc (considered_candidates p results)) ∧
        (∀ q : ℕ,
          (sortByScoreDesc (considered_candidates p results)).filter
              (fun x => x.1 == q) =
            (considered_candidates p results).filter (fun x => x.1 == q)) ∧
        extract_considered_profile_urls p results =
          dedupeGo [] ((sortByScoreDesc (considered_candidates p results)).map
            Prod.snd) ∧
        (extract_considered_profile_urls p results).Nodup ∧
        List.Sublist (extract_considered_profile_urls p results)
          ((sortByScoreDesc (considered_candidates p results)).map Prod.snd)) ∧
    (∀ (x : Str) (l : List Str),
      dedupeGo [] (x :: l) = x :: dedupeGo [] (l.filter (fun y => !(y == x)))) ∧
    (considered_candidates pJD [rJD1, rJD2, rJD3] =
        [(70, urlCanonJane), (85, urlCanonOther), (100, urlCanonJane)] ∧
      extract_considered_profile_urls pJD [rJD1, rJD2, rJD3] =
        [urlCanonJane, urlCanonOther]) := by
  refine ⟨?_, dedupeFirst_cons, by decide, by decide⟩
  intro p results
  refine ⟨List.perm_insertionSort scoreOrder _,
    List.sorted_insertionSort scoreOrder _,
    fun q => filter_score_sortByScoreDesc q _,
    rfl,
    (dedupeGo_avoid _ []).1,
    dedupeGo_sublist _ []⟩

/-! ## Whitespace predicates for C4
"internal whitespace collapsed to single spaces and trimmed at both
ends" is: every whitespace character is a plain space, no two adjacent
whitespace characters, and no leading or trailing whitespace. -/

def allWsSingleSpace (l : Str) : Bool := l.all (fun c => !isWs c || c == ' ')

def noAdjWs : Str → Bool
  | [] => true
  | [_] => true
  | a :: b :: r => !(isWs a && isWs b) && noAdjWs (b :: r)

def headNotWs : Str → Bool
  | [] => true
  | c :: _ => !isWs c

def lastNotWs : Str → Bool
  | [] => true
  | [c] => !isWs c
  | _ :: c :: r => lastNotWs (c :: r)

def trimmedCollapsed (l : Str) : Bool :=
  allWsSingleSpace l && noAdjWs l && headNotWs l && lastNotWs l

theorem noAdjWs_of_cons {c : Char} {l : Str} (h : noAdjWs (c :: l) = true) :
    noAdjWs l = true := by
  cases l with
  | nil => rfl
  | cons d r =>
    simp only [noAdjWs, Bool.and_eq_true] at h
    exact h.2

theorem noAdjWs_pair {c d : Char} {r : Str}
    (h : noAdjWs (c :: d :: r) = true) : (!(isWs c && isWs d)) = true := by
  simp only [noAdjWs, Bool.and_eq_true] at h
  exact h.1

theorem noAdjWs_cons_mk {c : Char} {l : Str}
    (h : isWs c = false ∨ headNotWs l = true) (hl : noAdjWs l = true) :
    noAdjWs (c :: l) = true := by
  cases l with
  | nil => rfl
  | cons d r =>
    simp only [noAdjWs, Bool.and_eq_true]
    refine ⟨?_, hl⟩
    rcases h with h | h
    · simp [h]
    · simp only [headNotWs, Bool.not_eq_true'] at h
      simp [h]

theorem headNotWs_collapseGo_true :
    ∀ l : Str, headNotWs (collapseGo true l) = true
  | [] => rfl
  | c :: cs => by
    by_cases hc : isWs c = true
    · simp [collapseGo, hc, headNotWs_collapseGo_true cs]
    · simp only [Bool.not_eq_true] at hc
      simp [collapseGo, hc, headNotWs]

theorem allWs_collapseGo : ∀ (l : Str) (b : Bool),
    allWsSingleSpace (collapseGo b l) = true
  | [], _ => rfl
  | c :: cs, b => by
    by_cases hc : isWs c = true
    · cases b with
      | true =>
        simp only [collapseGo, hc, if_true]
        exact allWs_collapseGo cs true
      | false =>
        simp only [collapseGo, hc, if_true, Bool.false_eq_true, if_false]
        have hrec := allWs_collapseGo cs true
        simp only [allWsSingleSpace, List.all_cons, Bool.and_eq_true] at hrec ⊢
        exact ⟨by simp, hrec⟩
    · simp only [Bool.not_eq_true] at hc
      simp only [collapseGo, hc, Bool.false_eq_true, if_false]
      have hrec := allWs_collapseGo cs false
      simp only [allWsSingleSpace, List.all_cons, Bool.and_eq_true] at hrec ⊢
      exact ⟨by simp [hc], hrec⟩

theorem noAdjWs_collapseGo : ∀ (l : Str) (b : Bool),
    noAdjWs (collapseGo b l) = true
  | [], _ => rfl
  | c :: cs, b => by
    by_cases hc : isWs c = true
    · cases b with
      | true => simpa [collapseGo, hc] using noAdjWs_collapseGo cs true
      | false =>
        simp only [collapseGo, hc, if_true, Bool.false_eq_true, if_false]
        exact noAdjWs_cons_mk (Or.inr (headNotWs_collapseGo_true cs))
          (noAdjWs_collapseGo cs true)
    · simp only [Bool.not_eq_true] at hc
      simp only [collapseGo, hc, Bool.false_eq_true, if_false]
      exact noAdjWs_cons_mk (Or.inl hc) (noAdjWs_collapseGo cs false)

theorem headNotWs_dropWhile :
    ∀ l : Str, headNotWs (l.dropWhile isWs) = true
  | [] => rfl
  | c :: cs => by
    by_cases hc : isWs c = true
    · simpa [List.dropWhile, hc] using headNotWs_dropWhile cs
    · simp only [Bool.not_eq_true] at hc
      simp [List.dropWhile, hc, headNotWs]

theorem noAdjWs_dropWhile :
    ∀ l : Str, noAdjWs l = true → noAdjWs (l.dropWhile isWs) = true
  | [], _ => rfl
  | c :: cs, h => by
    by_cases hc : isWs c = true
    · simpa [List.dropWhile, hc] using noAdjWs_dropWhile cs (noAdjWs_of_cons h)
    · simp only [Bool.not_eq_true] at hc
      simpa [List.dropWhile, hc] using h

theorem allWs_dropWhile (l : Str) (h : allWsSingleSpace l = true) :
    allWsSingleSpace (l.dropWhile isWs) = true := by
  simp only [allWsSingleSpace, List.all_eq_true] at h ⊢
  exact fun c hc => h c (List.dropWhile_sublist isWs |>.subset hc)

theorem head?_dropEndWhile (q : Char → Bool) :
    ∀ l : Str, dropEndWhile q l = [] ∨
      (dropEndWhile q l).head? = l.head?
  | [] => Or.inl rfl
  | c :: cs => by
    simp only [dropEndWhile]
    by_cases hr : (dropEndWhile q cs).isEmpty = true
    · by_cases hc : q c = true
      · simp [hr, hc]
      · simp [hr, hc]
    · simp [hr]

theorem headNotWs_dropEndWhile (q : Char → Bool) (l : Str)
    (h : headNotWs l = true) : headNotWs (dropEndWhile q l) = true := by
  rcases head?_dropEndWhile q l with he | he
  · simp [he, headNotWs]
  · cases hd : dropEndWhile q l with
    | nil => rfl
    | cons c cs =>
      rw [hd] at he
      cases l with
      | nil => simp at he
      | cons x xs =>
        simp only [List.head?] at he
        obtain rfl : c = x := by simpa using he
        simpa [headNotWs] using h

theorem noAdjWs_dropEndWhile (q : Char → Bool) :
    ∀ l : Str, noAdjWs l = true → noAdjWs (dropEndWhile q l) = true
  | [], _ => rfl
  | c :: cs, h => by
    simp only [dropEndWhile]
    by_cases hr : (dropEndWhile q cs).isEmpty = true
    · by_cases hc : q c = true <;> simp [hr, hc, noAdjWs]
    · simp only [hr, Bool.false_eq_true, if_false]
      have hrec := noAdjWs_dropEndWhile q cs (noAdjWs_of_cons h)
      refine noAdjWs_cons_mk ?_ hrec
      by_cases hcw : isWs c = true
      · right
        cases cs with
        | nil => simp [dropEndWhile] at hr
        | cons d ds =>
          rcases head?_dropEndWhile q (d :: ds) with he | he
          · rw [he] at hr; simp at hr
          · cases hd : dropEndWhile q (d :: ds) with
            | nil => rw [hd] at hr; simp at hr
            | cons e es =>
              rw [hd] at he
              simp only [List.head?] at he
              obtain rfl : e = d := by simpa using he
              have hpair := noAdjWs_pair h
              simp only [hcw, Bool.true_and, Bool.not_eq_true'] at hpair
              simp [headNotWs, hpair]
      · exact Or.inl (by simpa using hcw)

theorem allWs_dropEndWhile (q : Char → Bool) :
    ∀ l : Str, allWsSingleSpace l = true →
      allWsSingleSpace (dropEndWhile q l) = true
  | [], _ => rfl
  | c :: cs, h => by
    simp only [allWsSingleSpace, List.all_cons, Bool.and_eq_true] at h
    obtain ⟨hc, hcs⟩ := h
    simp only [dropEndWhile]
    by_cases hr : (dropEndWhile q cs).isEmpty = true
    · by_cases hq : q c = true <;>
        simp [hr, hq, allWsSingleSpace, List.all_cons, hc]
    · have hrec := allWs_dropEndWhile q cs hcs
      simp only [hr, Bool.false_eq_true, if_false]
      simp only [allWsSingleSpace, List.all_cons, Bool.and_eq_true] at hrec ⊢
      exact ⟨hc, hrec⟩

theorem lastNotWs_cons {c : Char} {r : Str} (h : r ≠ []) :
    lastNotWs (c :: r) = lastNotWs r := by
  cases r with
  | nil => exact absurd rfl h
  | cons d ds => rfl

theorem lastNotWs_dropEndWhile :
    ∀ l : Str, lastNotWs (dropEndWhile isWs l) = true
  | [] => rfl
  | c :: cs => by
    simp only [dropEndWhile]
    by_cases hr : (dropEndWhile isWs cs).isEmpty = true
    · by_cases hc : isWs c = true <;> simp [hr, hc, lastNotWs]
    · simp only [hr, Bool.false_eq_true, if_false]
      rw [lastNotWs_cons (by simpa [List.isEmpty_iff] using hr)]
      exact lastNotWs_dropEndWhile cs

/-- Every collapsed-and-trimmed string satisfies the C4 predicate. -/
theorem trimmedCollapsed_collapseAndTrim (l : Str) :
    trimmedCollapsed (collapseAndTrim l) = true := by
  have hA := allWs_collapseGo l false
  have hN := noAdjWs_collapseGo l false
  unfold collapseAndTrim collapseWs strip trimmedCollapsed
  refine Bool.and_eq_true_iff.mpr ⟨Bool.and_eq_true_iff.mpr ⟨Bool.and_eq_true_iff.mpr
    ⟨?_, ?_⟩, ?_⟩, ?_⟩
  · exact allWs_dropEndWhile isWs _ (allWs_dropWhile _ hA)
  · exact noAdjWs_dropEndWhile isWs _ (noAdjWs_dropWhile _ hN)
  · exact headNotWs_dropEndWhile isWs _ (headNotWs_dropWhile _)
  · exact lastNotWs_dropEndWhile _

theorem lastNotWs_append :
    ∀ (a b : Str), b ≠ [] → lastNotWs (a ++ b) = lastNotWs b
  | [], _, _ => rfl
  | c :: a, b, hb => by
    have hne : a ++ b ≠ [] := by
      intro hx
      exact hb (List.append_eq_nil.mp hx).2
    rw [List.cons_append, lastNotWs_cons hne, lastNotWs_append a b hb]

theorem noAdjWs_append_space :
    ∀ (a : Str), noAdjWs a = true → lastNotWs a = true →
      ∀ (b : Str), headNotWs b = true → noAdjWs b = true →
      a ≠ [] → noAdjWs (a ++ ' ' :: b) = true
  | [], _, _, _, _, _, h => absurd rfl h
  | [c], _, hlast, b, hhb, hb, _ => by
    have hc : isWs c = false := by simpa [lastNotWs, Bool.not_eq_true'] using hlast
    have hsb : noAdjWs (' ' :: b) = true := noAdjWs_cons_mk (Or.inr hhb) hb
    exact noAdjWs_cons_mk (Or.inl hc) hsb
  | c :: d :: a, ha, hlast, b, hhb, hb, _ => by
    have hrec : noAdjWs ((d :: a) ++ ' ' :: b) = true :=
      noAdjWs_append_space (d :: a) (noAdjWs_of_cons ha)
        (by simpa [lastNotWs_cons (List.cons_ne_nil d a)] using hlast)
        b hhb hb (List.cons_ne_nil d a)
    have hpair := noAdjWs_pair ha
    rw [List.cons_append]
    refine noAdjWs_cons_mk ?_ hrec
    by_cases hcw : isWs c = true
    · simp only [hcw, Bool.true_and, Bool.not_eq_true'] at hpair
      exact Or.inr (by simp [headNotWs, hpair])
    · exact Or.inl (by simpa using hcw)

theorem allWs_append_space {a b : Str} (ha : allWsSingleSpace a = true)
    (hb : allWsSingleSpace b = true) :
    allWsSingleSpace (a ++ ' ' :: b) = true := by
  simp only [allWsSingleSpace, List.all_eq_true] at ha hb ⊢
  intro c hc
  rcases List.mem_append.mp hc with h | h
  · exact ha c h
  · rcases List.mem_cons.mp h with rfl | h
    · simp
    · exact hb c h

theorem trimmedCollapsed_parts {l : Str} (h : trimmedCollapsed l = true) :
    allWsSingleSpace l = true ∧ noAdjWs l = true ∧ headNotWs l = true ∧
      lastNotWs l = true := by
  simp only [trimmedCollapsed, Bool.and_eq_true] at h
  exact ⟨h.1.1.1, h.1.1.2, h.1.2, h.2⟩

/-- Joining two collapsed-and-trimmed non-empty strings with a single
space is again collapsed and trimmed. -/
theorem trimmedCollapsed_append_space {a b : Str}
    (ha : trimmedCollapsed a = true) (hb : trimmedCollapsed b = true)
    (hna : a ≠ []) (hnb : b ≠ []) :
    trimmedCollapsed (a ++ ' ' :: b) = true := by
  obtain ⟨haA, haN, haH, haL⟩ := trimmedCollapsed_parts ha
  obtain ⟨hbA, hbN, hbH, hbL⟩ := trimmedCollapsed_parts hb
  simp only [trimmedCollapsed, Bool.and_eq_true]
  refine ⟨⟨⟨allWs_append_space haA hbA,
    noAdjWs_append_space a haN haL b hbH hbN hna⟩, ?_⟩, ?_⟩
  · cases a with
    | nil => exact absurd rfl hna
    | cons c a => simpa [headNotWs] using haH
  · rw [lastNotWs_append a (' ' :: b) (List.cons_ne_nil _ _),
      lastNotWs_cons hnb]
    exact hbL

/-- `collapseAndTrim` of a string starting with a non-whitespace
character keeps that head (so the result is non-empty). -/
theorem collapseAndTrim_head {c : Char} (hc : isWs c = false) (l : Str) :
    ∃ t, collapseAndTrim (c :: l) = c :: t := by
  have h1 : collapseWs (c :: l) = c :: collapseGo false l := by
    simp [collapseWs, collapseGo, hc]
  have h2 : (c :: collapseGo false l).dropWhile isWs =
      c :: collapseGo false l := by
    simp [List.dropWhile, hc]
  unfold collapseAndTrim strip
  rw [h1, h2]
  show ∃ t, dropEndWhile isWs (c :: collapseGo false l) = c :: t
  simp only [dropEndWhile]
  by_cases hr : (dropEndWhile isWs (collapseGo false l)).isEmpty = true
  · exact ⟨[], by simp [hr, hc]⟩
  · exact ⟨dropEndWhile isWs (collapseGo false l), by simp [hr]⟩

theorem joinSpace_cons_cons (x y : Str) (ys : List Str) :
    joinSpace (x :: y :: ys) = x ++ ' ' :: joinSpace (y :: ys) := rfl

/-- Pass A queries are non-empty: they start with the `s` of
`site:linkedin.com/in`. -/
theorem build_query_pass_a_ne_nil (p : PersonInput) :
    build_query_pass_a p ≠ [] := by
  have hs : sSiteIn = 's' :: ("ite:linkedin.com/in".toList) := rfl
  have hjoin : joinSpace (sSiteIn :: ('"' :: (strip p.full_name ++ ['"'])) ::
      (quoted_optional_terms p ++ negativeFilters)) =
        's' :: ("ite:linkedin.com/in".toList ++
          ' ' :: joinSpace (('"' :: (strip p.full_name ++ ['"'])) ::
            (quoted_optional_terms p ++ negativeFilters))) := by
    rw [joinSpace_cons_cons, hs]
    rfl
  obtain ⟨t, ht⟩ := collapseAndTrim_head (c := 's') rfl
    ("ite:linkedin.com/in".toList ++
      ' ' :: joinSpace (('"' :: (strip p.full_name ++ ['"'])) ::
        (quoted_optional_terms p ++ negativeFilters)))
  unfold build_query_pass_a
  rw [hjoin, ht]
  exact List.cons_ne_nil 's' t

set_option maxRecDepth 10000 in
/-- C4 (amended): Pass A and Pass C queries always have internal
whitespace collapsed to single spaces and are trimmed at both ends.
Pass B is Pass A plus a single space plus the stripped email, so it is
collapsed and trimmed whenever the stripped email is itself non-empty,
collapsed and trimmed (in particular for any ordinary email); an email
whose stripped form contains consecutive whitespace produces a query
with a double space (see the counterexample).  Pass B is empty exactly
when the email is absent or empty: in particular a present non-empty
email always yields a non-empty Pass B query. -/
theorem C4_queries_whitespace (p : PersonInput) :
    (trimmedCollapsed (build_query_pass_a p) = true ∧
      trimmedCollapsed (build_query_pass_c p) = true) ∧
    (∀ e : Str, p.email = some e → e ≠ [] → strip e ≠ [] →
      trimmedCollapsed (strip e) = true →
      trimmedCollapsed (build_query_pass_b p) = true) ∧
    (build_query_pass_b p = [] ↔ p.email = none ∨ p.email = some []) := by
  refine ⟨⟨trimmedCollapsed_collapseAndTrim _, trimmedCollapsed_collapseAndTrim _⟩,
    ?_, ?_, ?_⟩
  · intro e he hne hsne hst
    have hqb : build_query_pass_b p = build_query_pass_a p ++ ' ' :: strip e := by
      simp [build_query_pass_b, he, List.isEmpty_iff, hne]
    rw [hqb]
    exact trimmedCollapsed_append_space (trimmedCollapsed_collapseAndTrim _)
      hst (build_query_pass_a_ne_nil p) hsne
  · intro h
    rcases he : p.email with _ | e
    · exact Or.inl rfl
    · by_cases hE : e.isEmpty = true
      · exact Or.inr (by rw [List.isEmpty_iff.mp hE])
      · exfalso
        have hqb : build_query_pass_b p =
            build_query_pass_a p ++ ' ' :: strip e := by
          simp [build_query_pass_b, he, hE]
        rw [hqb] at h
        exact absurd (List.append_eq_nil.mp h).2 (List.cons_ne_nil _ _)
  · rintro (he | he) <;> simp [build_query_pass_b, he]

def sEmailOk : Str := "jane@acme.com".toList
def pEmailOk : PersonInput := ⟨sJaneDoe, some sEmailOk, none, none, none⟩

set_option maxRecDepth 10000 in
theorem C4_queries_whitespace_witness :
    trimmedCollapsed (build_query_pass_b pEmailOk) = true ∧
    build_query_pass_b pJane = [] ∧
    build_query_pass_b pEmailOk ≠ [] :=
  ⟨(C4_queries_whitespace pEmailOk).2.1 sEmailOk rfl (by decide) (by decide)
      (by decide),
   (C4_queries_whitespace pJane).2.2.mpr (Or.inl rfl),
   fun h => absurd ((C4_queries_whitespace pEmailOk).2.2.mp h) (by decide)⟩

/-! ## Scanning lemmas for the URL parser -/

theorem splitOnce_char_none {c : Char} :
    ∀ {l : Str}, c ∉ l → splitOnce [c] l = none
  | [], _ => rfl
  | x :: xs, h => by
    have hx : ¬ x = c := fun hq => h (hq ▸ List.mem_cons_self x xs)
    have hnt : ¬ (List.take ([c] : Str).length (x :: xs) == [c]) = true := by
      simp [hx]
    rw [splitOnce, if_neg hnt,
      splitOnce_char_none (fun hm => h (List.mem_cons_of_mem _ hm))]
    rfl

theorem splitOnce_char_append {c : Char} :
    ∀ {a : Str} (b : Str), c ∉ a → splitOnce [c] (a ++ c :: b) = some (a, b)
  | [], b, _ => by
    have hyes : (List.take ([c] : Str).length (c :: b) == [c]) = true := by simp
    rw [List.nil_append, splitOnce, if_pos hyes]
    rfl
  | x :: a, b, h => by
    have hx : ¬ x = c := fun hq => h (hq ▸ List.mem_cons_self x a)
    have hnt : ¬ (List.take ([c] : Str).length (x :: (a ++ c :: b)) == [c]) = true := by
      simp [hx]
    rw [List.cons_append, splitOnce, if_neg hnt,
      splitOnce_char_append b (fun hm => h (List.mem_cons_of_mem _ hm))]
    rfl

theorem splitOnce_char_not_mem_left {c : Char} :
    ∀ {l a b : Str}, splitOnce [c] l = some (a, b) → c ∉ a
  | [], a, b, h => by
    simp [splitOnce] at h
  | x :: xs, a, b, h => by
    by_cases hp : (List.take ([c] : Str).length (x :: xs) == [c]) = true
    · rw [splitOnce, if_pos hp] at h
      obtain ⟨h1, _⟩ := Prod.mk.injEq .. ▸ (Option.some.injEq .. ▸ h)
      subst h1
      exact List.not_mem_nil c
    · rw [splitOnce, if_neg hp] at h
      match h2 : splitOnce [c] xs with
      | none => rw [h2] at h; simp at h
      | some (a1, b1) =>
        rw [h2] at h
        simp only [Option.map_some', Option.some.injEq, Prod.mk.injEq] at h
        obtain ⟨h3, _⟩ := h
        subst h3
        intro hmem
        rcases List.mem_cons.mp hmem with rfl | hmem
        · exact hp (by simp)
        · exact splitOnce_char_not_mem_left h2 hmem

theorem takeWhile_append_stop {q : Char → Bool} :
    ∀ {a : Str} {y : Char} (b : Str),
      (∀ x ∈ a, q x = true) → q y = false →
      List.takeWhile q (a ++ y :: b) = a ∧
        List.dropWhile q (a ++ y :: b) = y :: b
  | [], y, b, _, hy => by
    constructor <;> simp [List.takeWhile, List.dropWhile, hy]
  | x :: a, y, b, ha, hy => by
    have hx : q x = true := ha x (List.mem_cons_self x a)
    have hrec := takeWhile_append_stop (a := a) (y := y) b
      (fun z hz => ha z (List.mem_cons_of_mem _ hz)) hy
    constructor
    · simp [List.takeWhile, hx, hrec.1]
    · simp [List.dropWhile, hx, hrec.2]

theorem dropEndWhile_concat (q : Char → Bool) (x : Char) :
    ∀ l : Str, dropEndWhile q (l ++ [x]) =
      if q x then dropEndWhile q l else l ++ [x]
  | [] => by
    by_cases hx : q x = true <;> simp [dropEndWhile, hx]
  | c :: l => by
    rw [List.cons_append]
    show (let r := dropEndWhile q (l ++ [x])
      if r.isEmpty then (if q c then [] else [c]) else c :: r) = _
    rw [dropEndWhile_concat q x l]
    by_cases hx : q x = true
    · simp only [hx, if_true]
      rfl
    · simp only [hx, Bool.false_eq_true, if_false]
      have : (l ++ [x]).isEmpty = false := by
        cases l <;> rfl
      simp [this]

theorem dropEndWhile_concat_of_neg (q : Char → Bool) (x : Char)
    (hx : q x = false) (l : Str) :
    dropEndWhile q (l ++ [x]) = l ++ [x] := by
  rw [dropEndWhile_concat, hx]
  rfl

theorem afterLastSlash_append :
    ∀ (a b : Str), '/' ∉ b → afterLastSlash (a ++ '/' :: b) = (a ++ ['/'], b)
  | [], b, hb => by
    rw [List.nil_append]
    show (if '/' ∈ b then _ else if ('/' == '/') = true then (['/'], b)
      else ([], '/' :: b)) = (['/'], b)
    simp [hb]
  | c :: a, b, hb => by
    have hmem : '/' ∈ (a ++ '/' :: b) :=
      List.mem_append.mpr (Or.inr (List.mem_cons_self _ _))
    rw [List.cons_append]
    show (if '/' ∈ (a ++ '/' :: b) then
        ((afterLastSlash (a ++ '/' :: b)).1.cons c,
          (afterLastSlash (a ++ '/' :: b)).2)
      else _) = ((c :: a) ++ ['/'], b)
    rw [if_pos hmem, afterLastSlash_append a b hb]
    rfl

theorem cleanUrl_eq {l : Str} (hhead : ∃ c t, l = c :: t ∧ isC0OrSpace c = false)
    (hclean : ∀ x ∈ l, isUnsafeUrlByte x = false) : cleanUrl l = l := by
  obtain ⟨c, t, rfl, hc⟩ := hhead
  unfold cleanUrl
  rw [List.dropWhile_cons, if_neg (by simp [hc])]
  rw [List.filter_eq_self.mpr (fun a ha => by simp [hclean a ha])]

/-! ## Structure of paths accepted by `_PROFILE_RE` -/

/-- The shape of the case-insensitive `/in/` or `/pub/` marker. -/
def tagShape (tag : Str) : Prop :=
  (∃ c1 c2, tag = ['/', c1, c2, '/'] ∧ (c1 = 'i' ∨ c1 = 'I') ∧
    (c2 = 'n' ∨ c2 = 'N')) ∨
  (∃ c1 c2 c3, tag = ['/', c1, c2, c3, '/'] ∧ (c1 = 'p' ∨ c1 = 'P') ∧
    (c2 = 'u' ∨ c2 = 'U') ∧ (c3 = 'b' ∨ c3 = 'B'))

theorem markerSplit_eq_shape :
    ∀ {p tag rest : Str}, markerSplit p = some (tag, rest) →
      p = tag ++ rest ∧ tagShape tag := by
  intro p tag rest h
  match p with
  | [] => simp [markerSplit] at h
  | [c0] => simp [markerSplit] at h
  | [c0, c1] => simp [markerSplit] at h
  | c0 :: c1 :: c2 :: rest' =>
    simp only [markerSplit] at h
    by_cases h0 : c0 = '/'
    · subst h0
      rw [if_pos (by simp)] at h
      by_cases hin : ((c1 == 'i' || c1 == 'I') && (c2 == 'n' || c2 == 'N')) = true
      · rw [if_pos hin] at h
        match rest' with
        | [] => simp at h
        | c3 :: r =>
          simp only [] at h
          by_cases h3 : c3 = '/'
          · subst h3
            rw [if_pos (by simp)] at h
            simp only [Option.some.injEq, Prod.mk.injEq] at h
            obtain ⟨rfl, rfl⟩ := h
            refine ⟨rfl, Or.inl ⟨c1, c2, rfl, ?_, ?_⟩⟩ <;>
              simp only [Bool.and_eq_true, Bool.or_eq_true, beq_iff_eq] at hin <;>
              tauto
          · rw [if_neg (by simp [h3])] at h
            simp at h
      · rw [if_neg hin] at h
        by_cases hpu : ((c1 == 'p' || c1 == 'P') && (c2 == 'u' || c2 == 'U')) = true
        · rw [if_pos hpu] at h
          match rest' with
          | [] => simp at h
          | [c3] => simp at h
          | c3 :: c4 :: r =>
            simp only [] at h
            by_cases hb : ((c3 == 'b' || c3 == 'B') && c4 == '/') = true
            · rw [if_pos hb] at h
              simp only [Option.some.injEq, Prod.mk.injEq] at h
              obtain ⟨rfl, rfl⟩ := h
              simp only [Bool.and_eq_true, Bool.or_eq_true, beq_iff_eq] at hpu hb
              obtain rfl : c4 = '/' := hb.2
              refine ⟨rfl, Or.inr ⟨c1, c2, c3, rfl, ?_, ?_, ?_⟩⟩ <;> tauto
            · rw [if_neg hb] at h
              simp at h
        · rw [if_neg hpu] at h
          simp at h
    · rw [if_neg (by simp [h0])] at h
      simp at h

theorem markerSplit_append {tag : Str} (h : tagShape tag) (r : Str) :
    markerSplit (tag ++ r) = some (tag, r) := by
  rcases h with ⟨c1, c2, rfl, hc1, hc2⟩ | ⟨c1, c2, c3, rfl, hc1, hc2, hc3⟩
  · rcases hc1 with rfl | rfl <;> rcases hc2 with rfl | rfl <;>
      simp [markerSplit]
  · rcases hc1 with rfl | rfl <;> rcases hc2 with rfl | rfl <;>
      rcases hc3 with rfl | rfl <;> simp [markerSplit]

/-- All characters of a marker are benign: not a query/fragment/param
delimiter, not a removed byte, not a bracket, allowed in a path. -/
theorem tagShape_chars {tag : Str} (h : tagShape tag) :
    ∀ x ∈ tag, x ≠ '#' ∧ x ≠ '?' ∧ x ≠ ';' ∧ x ≠ ':' ∧
      isUnsafeUrlByte x = false ∧ noBadPathChar x = true ∧
      isC0OrSpace x = false := by
  rcases h with ⟨c1, c2, rfl, hc1, hc2⟩ | ⟨c1, c2, c3, rfl, hc1, hc2, hc3⟩
  · rcases hc1 with rfl | rfl <;> rcases hc2 with rfl | rfl <;>
      (intro x hx; simp only [List.mem_cons, List.not_mem_nil, or_false] at hx) <;>
      rcases hx with rfl | rfl | rfl | rfl <;> exact ⟨by decide, by decide,
        by decide, by decide, by decide, by decide, by decide⟩
  · rcases hc1 with rfl | rfl <;> rcases hc2 with rfl | rfl <;>
      rcases hc3 with rfl | rfl <;>
      (intro x hx; simp only [List.mem_cons, List.not_mem_nil, or_false] at hx) <;>
      rcases hx with rfl | rfl | rfl | rfl | rfl <;> exact ⟨by decide, by decide,
        by decide, by decide, by decide, by decide, by decide⟩

/-- Decomposition of a path accepted by `_PROFILE_RE`: a marker, a
non-empty slash-free segment, an optional single trailing slash. -/
theorem profileRe_decomp {p : Str} (h : profileRe p = true) :
    ∃ tag seg sl, tagShape tag ∧ p = tag ++ seg ++ sl ∧
      (sl = [] ∨ sl = ['/']) ∧ seg ≠ [] ∧ ∀ x ∈ seg, ¬ x = '/' := by
  unfold profileRe at h
  match hm : markerSplit p with
  | none => rw [hm] at h; simp at h
  | some (tag, rest) =>
    rw [hm] at h
    obtain ⟨hp, hshape⟩ := markerSplit_eq_shape hm
    simp only [Bool.and_eq_true, Bool.not_eq_true', List.isEmpty_iff,
      List.all_eq_true, Bool.not_eq_true] at h
    by_cases hl : (rest.getLast? == some '/') = true
    · rw [if_pos hl] at h
      obtain ⟨hne, hall⟩ := h
      have hrest : rest ≠ [] := by
        intro hx
        subst hx
        simp at hl
      have hdecomp : rest.dropLast ++ [rest.getLast hrest] = rest :=
        List.dropLast_append_getLast hrest
      have hlast : rest.getLast hrest = '/' := by
        have := List.getLast?_eq_getLast rest hrest
        rw [this] at hl
        simpa using hl
      refine ⟨tag, rest.dropLast, ['/'], hshape, ?_, Or.inr rfl,
        (fun hx => by rw [hx] at hne; simp at hne), ?_⟩
      · rw [List.append_assoc, ← hlast, hdecomp, hp]
      · intro x hx
        have := hall x hx
        simpa using this
    · rw [if_neg hl] at h
      obtain ⟨hne, hall⟩ := h
      refine ⟨tag, rest, [], hshape, by simpa using hp, Or.inl rfl,
        (fun hx => by rw [hx] at hne; simp at hne), ?_⟩
      intro x hx
      simpa using hall x hx

/-- Converse: a marker followed by a non-empty slash-free segment and a
trailing slash matches `_PROFILE_RE`. -/
theorem profileRe_mk {tag seg : Str} (htag : tagShape tag) (hne : seg ≠ [])
    (hseg : ∀ x ∈ seg, ¬ x = '/') :
    profileRe (tag ++ seg ++ ['/']) = true := by
  have hlast : ((seg ++ ['/']).getLast? == some '/') = true := by
    simp [List.getLast?_concat]
  have hm := markerSplit_append htag (seg ++ ['/'])
  simp only [profileRe, List.append_assoc, hm]
  rw [if_pos hlast, List.dropLast_concat]
  simp only [Bool.and_eq_true, Bool.not_eq_true', List.all_eq_true]
  constructor
  · cases seg with
    | nil => exact absurd rfl hne
    | cons c cs => rfl
  · intro x hx
    simpa using hseg x hx

/-! ## Evaluation of the parser on well-formed https URLs -/

theorem urlsplitE_https (host r pf f p q : Str)
    (hhost : ∀ x ∈ host, notNetlocEnd x = true)
    (hbr1 : '[' ∉ host) (hbr2 : ']' ∉ host)
    (hcleanh : ∀ x ∈ host, isUnsafeUrlByte x = false)
    (hcleanr : ∀ x ∈ r, isUnsafeUrlByte x = false)
    (h3 : splitOnce ['#'] ('/' :: r) = some (pf, f) ∨
      (splitOnce ['#'] ('/' :: r) = none ∧ pf = '/' :: r ∧ f = []))
    (h4 : splitOnce ['?'] pf = some (p, q) ∨
      (splitOnce ['?'] pf = none ∧ p = pf ∧ q = [])) :
    urlsplitE ("https://".toList ++ host ++ '/' :: r) =
      some ("https".toList, host, p, q, f) := by
  have hU : "https://".toList ++ host ++ '/' :: r =
      "https".toList ++ ':' :: ('/' :: '/' :: (host ++ '/' :: r)) := by
    simp only [List.append_assoc]
    rfl
  have hclean : cleanUrl ("https://".toList ++ host ++ '/' :: r) =
      "https://".toList ++ host ++ '/' :: r := by
    apply cleanUrl_eq
    · exact ⟨'h', _, rfl, by decide⟩
    · intro x hx
      simp only [List.append_assoc, List.mem_append, List.mem_cons] at hx
      rcases hx with hx | hx | hx
      · revert hx
        revert x
        decide
      · exact hcleanh x hx
      · rcases hx with rfl | hx
        · decide
        · exact hcleanr x hx
  have hsch : splitOnce [':'] ("https://".toList ++ host ++ '/' :: r) =
      some ("https".toList, '/' :: '/' :: (host ++ '/' :: r)) := by
    rw [hU]
    exact splitOnce_char_append _ (by decide)
  have htw := takeWhile_append_stop (a := host) (y := '/') r hhost (by decide)
  have hb1 : host.elem '[' = false := by
    cases he : host.elem '[' with
    | false => rfl
    | true => exact absurd (List.mem_of_elem_eq_true he) hbr1
  have hb2 : host.elem ']' = false := by
    cases he : host.elem ']' with
    | false => rfl
    | true => exact absurd (List.mem_of_elem_eq_true he) hbr2
  have hcond : (!("https".toList : Str).isEmpty && headIsAlpha ("https".toList) &&
      ("https".toList : Str).all schemeChar) = true := by decide
  have hlow : lowerStr ("https".toList) = "https".toList := by decide
  have htk2 : (List.take 2 ('/' :: '/' :: (host ++ '/' :: r)) ==
      ['/', '/']) = true := by simp
  have hdrop2 : List.drop 2 ('/' :: '/' :: (host ++ '/' :: r)) =
      host ++ '/' :: r := rfl
  unfold urlsplitE splitScheme splitNetloc splitFragment splitQuery
  simp only [hclean, hsch, hcond, hlow, htk2, hdrop2, htw.1, htw.2, hb1, hb2,
    eq_self_iff_true, if_true, bne_self_eq_false, Bool.false_eq_true, if_false]
  rcases h3 with h3 | ⟨h3, rfl, rfl⟩ <;> rcases h4 with h4 | ⟨h4, rfl, rfl⟩ <;>
    simp [h3, h4]

theorem splitOnce_char_of_mem {c : Char} :
    ∀ {l : Str}, c ∈ l → splitOnce [c] l ≠ none
  | [], h => absurd h (List.not_mem_nil c)
  | x :: xs, h => by
    by_cases hx : x = c
    · subst hx
      rw [splitOnce, if_pos (by simp)]
      simp
    · rw [splitOnce, if_neg (by simp [hx])]
      rcases List.mem_cons.mp h with rfl | hmem
      · exact absurd rfl hx
      · intro hcontra
        exact splitOnce_char_of_mem hmem (by
          rcases ho : splitOnce [c] xs with _ | v
          · rfl
          · rw [ho] at hcontra; simp at hcontra)

theorem splitScheme_snd_subset (url : Str) :
    ∀ ch ∈ (splitScheme url).2, ch ∈ url := by
  intro ch hch
  unfold splitScheme at hch
  rcases hs : splitOnce [':'] url with _ | ⟨pre, post⟩
  · rw [hs] at hch
    exact hch
  · rw [hs] at hch
    simp only [] at hch
    by_cases hv : (!pre.isEmpty && headIsAlpha pre && pre.all schemeChar) = true
    · rw [if_pos hv] at hch
      rw [splitOnce_eq hs]
      simp only [List.append_assoc, List.mem_append]
      exact Or.inr (Or.inr hch)
    · rw [if_neg hv] at hch
      exact hch

theorem splitNetloc_snd_subset (r1 : Str) :
    ∀ ch ∈ (splitNetloc r1).2, ch ∈ r1 := by
  intro ch hch
  unfold splitNetloc at hch
  by_cases ht : (List.take 2 r1 == ['/', '/']) = true
  · rw [if_pos ht] at hch
    exact (List.drop_subset 2 r1) ((List.dropWhile_sublist notNetlocEnd).subset hch)
  · rw [if_neg ht] at hch
    exact hch

theorem splitFragment_fst (r2 : Str) :
    '#' ∉ (splitFragment r2).1 ∧ ∀ ch ∈ (splitFragment r2).1, ch ∈ r2 := by
  unfold splitFragment
  rcases hs : splitOnce ['#'] r2 with _ | ⟨a, b⟩ <;> simp only []
  · refine ⟨?_, fun ch hch => hch⟩
    intro hmem
    exact splitOnce_char_of_mem hmem hs
  · refine ⟨splitOnce_char_not_mem_left hs, ?_⟩
    intro ch hch
    rw [splitOnce_eq hs]
    simp only [List.append_assoc, List.mem_append]
    exact Or.inl hch

theorem splitQuery_fst (r3 : Str) :
    '?' ∉ (splitQuery r3).1 ∧ ∀ ch ∈ (splitQuery r3).1, ch ∈ r3 := by
  unfold splitQuery
  rcases hs : splitOnce ['?'] r3 with _ | ⟨a, b⟩ <;> simp only []
  · refine ⟨?_, fun ch hch => hch⟩
    intro hmem
    exact splitOnce_char_of_mem hmem hs
  · refine ⟨splitOnce_char_not_mem_left hs, ?_⟩
    intro ch hch
    rw [splitOnce_eq hs]
    simp only [List.append_assoc, List.mem_append]
    exact Or.inl hch

/-- The path produced by `urlsplit` contains no `#`, no `?`, and none
of the removed bytes. -/
theorem urlsplitE_path_chars {x s n p q f : Str}
    (h : urlsplitE x = some (s, n, p, q, f)) :
    '#' ∉ p ∧ '?' ∉ p ∧ ∀ ch ∈ p, isUnsafeUrlByte ch = false := by
  unfold urlsplitE at h
  by_cases hbr : ((splitNetloc (splitScheme (cleanUrl x)).2).1.elem '[' !=
      (splitNetloc (splitScheme (cleanUrl x)).2).1.elem ']') = true
  · rw [if_pos hbr] at h
    simp at h
  · rw [if_neg hbr] at h
    simp only [Option.some.injEq, Prod.mk.injEq] at h
    obtain ⟨-, -, hp, -, -⟩ := h
    subst hp
    set r2 := (splitNetloc (splitScheme (cleanUrl x)).2).2 with hr2
    obtain ⟨hfr1, hfr2⟩ := splitFragment_fst r2
    obtain ⟨hq1, hq2⟩ := splitQuery_fst (splitFragment r2).1
    refine ⟨fun hmem => hfr1 (hq2 _ hmem), hq1, ?_⟩
    intro ch hch
    have hch2 : ch ∈ cleanUrl x :=
      splitScheme_snd_subset (cleanUrl x)
        _ (splitNetloc_snd_subset _ _ (hfr2 _ (hq2 _ hch)))
    unfold cleanUrl at hch2
    have := (List.mem_filter.mp hch2).2
    simpa using this

theorem splitparams_ends_slash (p' : Str) :
    splitparams (p' ++ ['/']) = (p' ++ ['/'], []) := by
  have hmem : '/' ∈ p' ++ ['/'] :=
    List.mem_append.mpr (Or.inr (List.mem_cons_self _ _))
  have hals : afterLastSlash (p' ++ '/' :: []) = (p' ++ ['/'], []) :=
    afterLastSlash_append p' [] (List.not_mem_nil '/')
  unfold splitparams
  rw [if_pos hmem, hals]
  rfl

theorem afterLastSlash_cons (c : Char) (cs : Str) :
    afterLastSlash (c :: cs) =
      if '/' ∈ cs then ((afterLastSlash cs).1.cons c, (afterLastSlash cs).2)
      else if c == '/' then ([c], cs) else ([], c :: cs) := rfl

theorem afterLastSlash_eq : ∀ p : Str,
    (afterLastSlash p).1 ++ (afterLastSlash p).2 = p
  | [] => rfl
  | c :: cs => by
    rw [afterLastSlash_cons]
    by_cases hm : '/' ∈ cs
    · rw [if_pos hm]
      show c :: ((afterLastSlash cs).1 ++ (afterLastSlash cs).2) = c :: cs
      rw [afterLastSlash_eq cs]
    · rw [if_neg hm]
      by_cases hc : (c == '/') = true
      · rw [if_pos hc]
        rfl
      · rw [if_neg hc]
        rfl

theorem splitparams_fst_subset (p : Str) :
    ∀ ch ∈ (splitparams p).1, ch ∈ p := by
  intro ch hch
  unfold splitparams at hch
  by_cases hm : '/' ∈ p
  · rw [if_pos hm] at hch
    rcases hs : splitOnce [';'] (afterLastSlash p).2 with _ | ⟨xx, yy⟩
    · rw [hs] at hch
      exact hch
    · rw [hs] at hch
      simp only [] at hch
      rw [← afterLastSlash_eq p]
      rcases List.mem_append.mp hch with hca | hcx
      · exact List.mem_append.mpr (Or.inl hca)
      · refine List.mem_append.mpr (Or.inr ?_)
        rw [splitOnce_eq hs]
        simp only [List.append_assoc, List.mem_append]
        exact Or.inl hcx
  · rw [if_neg hm] at hch
    rcases hs : splitOnce [';'] p with _ | ⟨xx, yy⟩
    · rw [hs] at hch
      exact hch
    · rw [hs] at hch
      simp only [] at hch
      rw [splitOnce_eq hs]
      simp only [List.append_assoc, List.mem_append]
      exact Or.inl hch

/-- Evaluate `urlparse` from an `urlsplit` result whose path either has
no `;` or ends in a slash. -/
theorem urlparse_eval {u s n p q f : Str}
    (h : urlsplitE u = some (s, n, p, q, f))
    (hp : ';' ∉ p ∨ ∃ p', p = p' ++ ['/']) :
    urlparse u = some ⟨s, n, p, [], q, f⟩ := by
  unfold urlparse
  rw [h]
  simp only []
  by_cases hmem : ';' ∈ p
  · rcases hp with hp | ⟨p', rfl⟩
    · exact absurd hmem hp
    · simp only [hmem, if_true, splitparams_ends_slash]
  · simp only [hmem, if_false]

/-- The path of a parsed URL contains no `#`, `?` or removed byte. -/
theorem urlparse_path_chars {x : Str} {u : ParsedUrl}
    (h : urlparse x = some u) :
    '#' ∉ u.path ∧ '?' ∉ u.path ∧ ∀ ch ∈ u.path, isUnsafeUrlByte ch = false := by
  unfold urlparse at h
  rcases hs : urlsplitE x with _ | ⟨s, n, p, q, f⟩
  · rw [hs] at h
    simp at h
  · rw [hs] at h
    simp only [] at h
    obtain ⟨hh, hq, hm⟩ := urlsplitE_path_chars hs
    by_cases hmem : ';' ∈ p
    · rw [if_pos hmem] at h
      obtain rfl : u = ⟨s, n, (splitparams p).1, (splitparams p).2, q, f⟩ := by
        simpa using h.symm
      refine ⟨fun hc => hh (splitparams_fst_subset p _ hc),
        fun hc => hq (splitparams_fst_subset p _ hc),
        fun ch hch => hm ch (splitparams_fst_subset p _ hch)⟩
    · rw [if_neg hmem] at h
      obtain rfl : u = ⟨s, n, p, [], q, f⟩ := by simpa using h.symm
      exact ⟨hh, hq, hm⟩

theorem urlunparse_https_path (P : Str) (hP : ∃ t, P = '/' :: t) :
    urlunparse sHttps sWwwLinkedin P [] [] [] =
      "https://www.linkedin.com".toList ++ P := by
  obtain ⟨t, rfl⟩ := hP
  have e1 : (([] : Str).isEmpty) = true := rfl
  have e2 : (!sWwwLinkedin.isEmpty) = true := by decide
  have e3 : (!(('/' :: t : Str)).isEmpty &&
      !(List.take 1 ('/' :: t) == ['/'])) = false := by simp
  have e4 : sHttps.isEmpty = false := by decide
  unfold urlunparse
  simp only [e1, e2, e3, e4, eq_self_iff_true, if_true, Bool.true_or,
    Bool.false_eq_true, if_false]
  rfl

/-! ## The canonical form produced by `normalize_linkedin_profile_url` -/

/-- `re.sub(r"/+$", "", path) + "/"` on a path accepted by the profile
pattern yields marker ++ segment ++ one slash. -/
theorem strip_slashes_profile {tag seg sl : Str} (hne : seg ≠ [])
    (hseg : ∀ x ∈ seg, ¬ x = '/') (hsl : sl = [] ∨ sl = ['/']) :
    dropEndWhile (fun c => c == '/') (tag ++ seg ++ sl) ++ ['/'] =
      tag ++ seg ++ ['/'] := by
  obtain ⟨s', xl, rfl⟩ : ∃ s' x, seg = s' ++ [x] := by
    rcases List.eq_nil_or_concat seg with rfl | ⟨s', x, rfl⟩
    · exact absurd rfl hne
    · exact ⟨s', x, List.concat_eq_append _ _⟩
  have hx : ((fun c => c == '/') xl) = false := by
    have := hseg xl (List.mem_append.mpr (Or.inr (List.mem_cons_self _ _)))
    simpa using this
  rcases hsl with rfl | rfl
  · have hsh : tag ++ (s' ++ [xl]) ++ ([] : Str) = (tag ++ s') ++ [xl] := by
      simp
    rw [hsh, dropEndWhile_concat_of_neg (fun c => c == '/') xl hx]
    simp
  · have hsh : tag ++ (s' ++ [xl]) ++ ['/'] = ((tag ++ s') ++ [xl]) ++ ['/'] := by
      simp
    rw [hsh, dropEndWhile_concat, if_pos (by decide : (((fun c => c == '/') '/') = true)),
      dropEndWhile_concat_of_neg (fun c => c == '/') xl hx]

/-- Every character of a one-segment condition bundle. -/
def segOk (seg : Str) : Prop :=
  ∀ ch ∈ seg, ¬ ch = '/' ∧ ch ≠ '#' ∧ ch ≠ '?' ∧ isUnsafeUrlByte ch = false

/-- Shape of every successful `normalize_linkedin_profile_url` output:
the fixed lowercase prefix, the case-preserved marker, a non-empty
clean segment, one trailing slash. -/
theorem normalize_some_shape {x y : Str}
    (h : normalize_linkedin_profile_url x = some y) :
    ∃ tag seg, tagShape tag ∧ seg ≠ [] ∧ segOk seg ∧
      y = "https://www.linkedin.com".toList ++ tag ++ seg ++ ['/'] := by
  unfold normalize_linkedin_profile_url at h
  rcases hu : urlparse x with _ | u
  · rw [hu] at h
    simp at h
  · rw [hu] at h
    simp only [] at h
    by_cases h1 : (!occursIn sLinkedinDomain u.netloc) = true
    · rw [if_pos h1] at h
      simp at h
    · rw [if_neg h1] at h
      by_cases h2 : (!profileRe u.path) = true
      · rw [if_pos h2] at h
        simp at h
      · rw [if_neg h2] at h
        have hre : profileRe u.path = true := by
          rcases hb : profileRe u.path with _ | _
          · exact absurd (by simp [hb]) h2
          · rfl
        obtain ⟨tag, seg, sl, htag, hdecomp, hsl, hne, hseg⟩ := profileRe_decomp hre
        obtain ⟨hh, hq, hclean⟩ := urlparse_path_chars hu
        simp only [Option.some.injEq] at h
        have hstrip : dropEndWhile (fun c => c == '/') u.path ++ ['/'] =
            tag ++ seg ++ ['/'] := by
          rw [hdecomp]
          exact strip_slashes_profile hne hseg hsl
        refine ⟨tag, seg, htag, hne, ?_, ?_⟩
        · intro ch hch
          have hmem : ch ∈ u.path := by
            rw [hdecomp]
            simp only [List.append_assoc, List.mem_append]
            exact Or.inr (Or.inl hch)
          exact ⟨hseg ch hch, fun hx => hh (hx ▸ hmem),
            fun hx => hq (hx ▸ hmem), hclean ch hmem⟩
        · rw [← h, hstrip, urlunparse_https_path _ ?_]
          · simp
          · rcases htag with ⟨c1, c2, rfl, _, _⟩ | ⟨c1, c2, c3, rfl, _, _, _⟩ <;>
              exact ⟨_, rfl⟩

/-- Normalizing a canonical URL succeeds and returns it unchanged. -/
theorem normalize_canonical {tag seg : Str} (htag : tagShape tag)
    (hne : seg ≠ []) (hseg : segOk seg) :
    normalize_linkedin_profile_url
        ("https://www.linkedin.com".toList ++ tag ++ seg ++ ['/']) =
      some ("https://www.linkedin.com".toList ++ tag ++ seg ++ ['/']) := by
  obtain ⟨tagtail, htail⟩ : ∃ t, tag = '/' :: t := by
    rcases htag with ⟨c1, c2, rfl, _, _⟩ | ⟨c1, c2, c3, rfl, _, _, _⟩ <;>
      exact ⟨_, rfl⟩
  have htagchars := tagShape_chars htag
  have hP : ('/' :: (tagtail ++ (seg ++ ['/'])) : Str) = tag ++ (seg ++ ['/']) := by
    rw [htail]
    rfl
  have hU : "https://www.linkedin.com".toList ++ tag ++ seg ++ ['/'] =
      "https://".toList ++ "www.linkedin.com".toList ++
        '/' :: (tagtail ++ (seg ++ ['/'])) := by
    rw [hP]
    simp only [List.append_assoc]
    rfl
  have hmem_r : ∀ ch ∈ tagtail ++ (seg ++ ['/']),
      ch ≠ '#' ∧ ch ≠ '?' ∧ isUnsafeUrlByte ch = false := by
    intro ch hch
    simp only [List.mem_append, List.mem_cons, List.not_mem_nil, or_false] at hch
    rcases hch with hch | hch | hch
    · have := htagchars ch (by rw [htail]; exact List.mem_cons_of_mem _ hch)
      exact ⟨this.1, this.2.1, this.2.2.2.2.1⟩
    · exact ⟨(hseg ch hch).2.1, (hseg ch hch).2.2.1, (hseg ch hch).2.2.2⟩
    · subst hch
      exact ⟨by decide, by decide, by decide⟩
  have hhash : '#' ∉ ('/' :: (tagtail ++ (seg ++ ['/'])) : Str) := by
    intro hmem
    rcases List.mem_cons.mp hmem with hx | hx
    · exact absurd hx.symm (by decide)
    · exact (hmem_r '#' hx).1 rfl
  have hquest : '?' ∉ ('/' :: (tagtail ++ (seg ++ ['/'])) : Str) := by
    intro hmem
    rcases List.mem_cons.mp hmem with hx | hx
    · exact absurd hx.symm (by decide)
    · exact (hmem_r '?' hx).2.1 rfl
  have hsplit := urlsplitE_https ("www.linkedin.com".toList)
    (tagtail ++ (seg ++ ['/'])) _ _ _ _
    (by decide) (by decide) (by decide) (by decide)
    (fun x hx => (hmem_r x hx).2.2)
    (Or.inr ⟨splitOnce_char_none hhash, rfl, rfl⟩)
    (Or.inr ⟨splitOnce_char_none hquest, rfl, rfl⟩)
  have hparse := urlparse_eval hsplit
    (Or.inr ⟨tag ++ seg, by rw [hP]; simp⟩)
  have hparse2 : urlparse ("https://www.linkedin.com".toList ++ tag ++ seg ++ ['/']) =
      some ⟨"https".toList, "www.linkedin.com".toList,
        '/' :: (tagtail ++ (seg ++ ['/'])), [], [], []⟩ := by
    rw [hU]
    exact hparse
  unfold normalize_linkedin_profile_url
  rw [hparse2]
  simp only []
  rw [if_neg (by decide :
    ¬ ((!occursIn sLinkedinDomain ("www.linkedin.com".toList)) = true))]
  have hre : profileRe ('/' :: (tagtail ++ (seg ++ ['/']))) = true := by
    rw [hP, ← List.append_assoc]
    exact profileRe_mk htag hne (fun x hx => (hseg x hx).1)
  rw [if_neg (by simp [hre])]
  have hstrip : dropEndWhile (fun c => c == '/')
      ('/' :: (tagtail ++ (seg ++ ['/']))) ++ ['/'] =
        tag ++ seg ++ ['/'] := by
    rw [hP, ← List.append_assoc]
    exact strip_slashes_profile hne (fun x hx => (hseg x hx).1) (Or.inr rfl)
  rw [hstrip, urlunparse_https_path _ ?_]
  · simp
  · rw [htail]
    exact ⟨_, rfl⟩

/-- Canonical outputs satisfy the (case-insensitive-marker) canonical
form predicate. -/
theorem canonicalFormCI_canonical {tag seg : Str} (htag : tagShape tag)
    (hne : seg ≠ []) (hseg : segOk seg) :
    canonicalFormCI
      ("https://www.linkedin.com".toList ++ tag ++ seg ++ ['/']) = true := by
  have hpfx : "https://www.linkedin.com".toList ++ tag ++ seg ++ ['/'] =
      pfxCanon ++ (tag ++ seg ++ ['/']) := by
    simp [pfxCanon]
  have hlen : (pfxCanon : Str).length = 24 := rfl
  unfold canonicalFormCI
  rw [hpfx]
  have ht : List.take 24 (pfxCanon ++ (tag ++ seg ++ ['/'])) = pfxCanon := by
    rw [← hlen, List.take_left]
  have hd : List.drop 24 (pfxCanon ++ (tag ++ seg ++ ['/'])) =
      tag ++ seg ++ ['/'] := by
    rw [← hlen, List.drop_left]
  rw [ht, hd]
  have hre : profileRe (tag ++ seg ++ ['/']) = true :=
    profileRe_mk htag hne (fun x hx => (hseg x hx).1)
  have hlast : ((tag ++ seg ++ ['/']).getLast? == some '/') = true := by
    simp [List.getLast?_concat]
  have hall : (tag ++ seg ++ ['/']).all noBadPathChar = true := by
    simp only [List.all_eq_true]
    intro x hx
    simp only [List.append_assoc, List.mem_append, List.mem_cons,
      List.not_mem_nil, or_false] at hx
    rcases hx with hx | hx | hx
    · exact (tagShape_chars htag x hx).2.2.2.2.2.1
    · obtain ⟨-, h2, h3, h4⟩ := hseg x hx
      simp only [isUnsafeUrlByte, Bool.or_eq_false_iff, beq_eq_false_iff_ne,
        ne_eq] at h4
      simp [noBadPathChar, h2, h3, h4.1.1, h4.1.2, h4.2]
    · subst hx
      decide
  unfold canonicalPath
  simp only [hre, hlast, hall]
  rfl

set_option maxRecDepth 10000 in
/-- C9: normalization is idempotent: whenever
`normalize_linkedin_profile_url x = some y`, normalizing `y` again
returns `some y`. -/
theorem C9_normalize_idempotent (x y : Str)
    (h : normalize_linkedin_profile_url x = some y) :
    normalize_linkedin_profile_url y = some y := by
  obtain ⟨tag, seg, htag, hne, hseg, rfl⟩ := normalize_some_shape h
  exact normalize_canonical htag hne hseg

set_option maxRecDepth 10000 in
theorem C9_normalize_idempotent_witness :
    normalize_linkedin_profile_url urlCanonJane = some urlCanonJane :=
  C9_normalize_idempotent urlBareJane urlCanonJane (by decide)

set_option maxRecDepth 10000 in
/-- C10 (amended): every URL returned by discovery has the canonical
form `https://www.linkedin.com/<marker><slug>/` with lowercase scheme
and host, a case-insensitively matched marker whose case is preserved
from the raw link (so `/IN/` is possible — see the counterexample),
exactly one trailing slash and no query or fragment, and it is a fixed
point of the normalizer. -/
theorem C10_output_canonical (p : PersonInput) (results : List SearchResult)
    (u : Str) (hu : u ∈ extract_considered_profile_urls p results) :
    canonicalFormCI u = true ∧
      normalize_linkedin_profile_url u = some u := by
  have h1 : u ∈ (sortByScoreDesc (considered_candidates p results)).map
      Prod.snd :=
    (dedupeGo_sublist _ []).subset hu
  obtain ⟨cand, hcand, rfl⟩ := List.mem_map.mp h1
  have h2 : cand ∈ considered_candidates p results :=
    (List.perm_insertionSort scoreOrder _).subset hcand
  obtain ⟨r, hr, hf⟩ := List.mem_filterMap.mp h2
  by_cases hgate : title_contains_full_name r.title p.full_name = true
  · rw [if_pos hgate] at hf
    rcases hn : normalize_linkedin_profile_url r.link with _ | url
    · rw [hn] at hf
      simp at hf
    · rw [hn] at hf
      simp only [] at hf
      by_cases hemp : url.isEmpty = true
      · rw [if_pos hemp] at hf
        simp at hf
      · rw [if_neg hemp] at hf
        simp only [Option.some.injEq] at hf
        obtain rfl : cand = (score_candidate p r, url) := hf.symm
        obtain ⟨tag, seg, htag, hne, hseg, hy⟩ := normalize_some_shape hn
        show canonicalFormCI url = true ∧ _
        rw [hy]
        exact ⟨canonicalFormCI_canonical htag hne hseg,
          normalize_canonical htag hne hseg⟩
  · rw [if_neg hgate] at hf
    simp at hf

set_option maxRecDepth 10000 in
theorem C10_output_canonical_witness :
    canonicalFormCI urlCanonJane = true ∧
      normalize_linkedin_profile_url urlCanonJane = some urlCanonJane :=
  C10_output_canonical pJane [rPassC] urlCanonJane (by decide)

/-- C5 (amended): the query string and fragment are split off by
`urlparse` before the path pattern is applied and are dropped from the
canonical output, so for every well-formed https URL, appending a query
string alone, a fragment alone, or both gives the same normalization
result as the bare URL (acceptance included) — rather than being
rejected. -/
theorem C5_query_fragment_ignored (host path qs fs : Str)
    (hhost : ∀ x ∈ host, notNetlocEnd x = true ∧ x ≠ '[' ∧ x ≠ ']' ∧
      isUnsafeUrlByte x = false)
    (hpath : ∀ x ∈ path, x ≠ '?' ∧ x ≠ '#' ∧ x ≠ ';' ∧
      isUnsafeUrlByte x = false)
    (hqs : ∀ x ∈ qs, x ≠ '#' ∧ isUnsafeUrlByte x = false)
    (hfs : ∀ x ∈ fs, isUnsafeUrlByte x = false) :
    (normalize_linkedin_profile_url
        ("https://".toList ++ host ++ '/' :: path ++ '?' :: qs) =
      normalize_linkedin_profile_url
        ("https://".toList ++ host ++ '/' :: path)) ∧
    (normalize_linkedin_profile_url
        ("https://".toList ++ host ++ '/' :: path ++ '#' :: fs) =
      normalize_linkedin_profile_url
        ("https://".toList ++ host ++ '/' :: path)) ∧
    (normalize_linkedin_profile_url
        ("https://".toList ++ host ++ '/' :: path ++ '?' :: qs ++ '#' :: fs) =
      normalize_linkedin_profile_url
        ("https://".toList ++ host ++ '/' :: path)) := by
  have hh1 : ∀ x ∈ host, notNetlocEnd x = true := fun x hx => (hhost x hx).1
  have hh2 : '[' ∉ host := fun hx => (hhost '[' hx).2.1 rfl
  have hh3 : ']' ∉ host := fun hx => (hhost ']' hx).2.2.1 rfl
  have hh4 : ∀ x ∈ host, isUnsafeUrlByte x = false :=
    fun x hx => (hhost x hx).2.2.2
  have hnohash : '#' ∉ ('/' :: (path ++ '?' :: qs) : Str) := by
    intro hmem
    rcases List.mem_cons.mp hmem with hx | hx
    · exact absurd hx.symm (by decide)
    · rcases List.mem_append.mp hx with hx | hx
      · exact (hpath '#' hx).2.1 rfl
      · rcases List.mem_cons.mp hx with hx | hx
        · exact absurd hx.symm (by decide)
        · exact (hqs '#' hx).1 rfl
  have hnoq : '?' ∉ ('/' :: path : Str) := by
    intro hmem
    rcases List.mem_cons.mp hmem with hx | hx
    · exact absurd hx.symm (by decide)
    · exact (hpath '?' hx).1 rfl
  have hnohashR : '#' ∉ ('/' :: path : Str) := by
    intro hmem
    rcases List.mem_cons.mp hmem with hx | hx
    · exact absurd hx.symm (by decide)
    · exact (hpath '#' hx).2.1 rfl
  have hshape3 : ('/' :: (path ++ '?' :: qs ++ '#' :: fs) : Str) =
      ('/' :: (path ++ '?' :: qs)) ++ '#' :: fs := by
    simp
  have h3L : splitOnce ['#'] ('/' :: (path ++ '?' :: qs ++ '#' :: fs)) =
      some ('/' :: (path ++ '?' :: qs), fs) := by
    rw [hshape3]
    exact splitOnce_char_append _ hnohash
  have hshape4 : ('/' :: (path ++ '?' :: qs) : Str) =
      ('/' :: path) ++ '?' :: qs := by
    simp
  have h4L : splitOnce ['?'] ('/' :: (path ++ '?' :: qs)) =
      some ('/' :: path, qs) := by
    rw [hshape4]
    exact splitOnce_char_append _ hnoq
  have hcleanrL : ∀ x ∈ path ++ '?' :: qs ++ '#' :: fs,
      isUnsafeUrlByte x = false := by
    intro x hx
    rcases List.mem_append.mp hx with hx | hx
    · rcases List.mem_append.mp hx with hx | hx
      · exact (hpath x hx).2.2.2
      · rcases List.mem_cons.mp hx with rfl | hx
        · decide
        · exact (hqs x hx).2
    · rcases List.mem_cons.mp hx with rfl | hx
      · decide
      · exact hfs x hx
  have hcleanrQ : ∀ x ∈ path ++ '?' :: qs, isUnsafeUrlByte x = false := by
    intro x hx
    rcases List.mem_append.mp hx with hx | hx
    · exact (hpath x hx).2.2.2
    · rcases List.mem_cons.mp hx with rfl | hx
      · decide
      · exact (hqs x hx).2
  have hshapeF : ('/' :: (path ++ '#' :: fs) : Str) =
      ('/' :: path) ++ '#' :: fs := by
    simp
  have h3F : splitOnce ['#'] ('/' :: (path ++ '#' :: fs)) =
      some ('/' :: path, fs) := by
    rw [hshapeF]
    exact splitOnce_char_append _ hnohashR
  have hcleanrF : ∀ x ∈ path ++ '#' :: fs, isUnsafeUrlByte x = false := by
    intro x hx
    rcases List.mem_append.mp hx with hx | hx
    · exact (hpath x hx).2.2.2
    · rcases List.mem_cons.mp hx with rfl | hx
      · decide
      · exact hfs x hx
  have hsplitB := urlsplitE_https host (path ++ '?' :: qs ++ '#' :: fs)
    _ _ _ _ hh1 hh2 hh3 hh4 hcleanrL (Or.inl h3L) (Or.inl h4L)
  have hsplitQ := urlsplitE_https host (path ++ '?' :: qs)
    _ _ _ _ hh1 hh2 hh3 hh4 hcleanrQ
    (Or.inr ⟨splitOnce_char_none hnohash, rfl, rfl⟩) (Or.inl h4L)
  have hsplitF := urlsplitE_https host (path ++ '#' :: fs)
    _ _ _ _ hh1 hh2 hh3 hh4 hcleanrF (Or.inl h3F)
    (Or.inr ⟨splitOnce_char_none hnoq, rfl, rfl⟩)
  have hsplitR := urlsplitE_https host path _ _ _ _ hh1 hh2 hh3 hh4
    (fun x hx => (hpath x hx).2.2.2)
    (Or.inr ⟨splitOnce_char_none hnohashR, rfl, rfl⟩)
    (Or.inr ⟨splitOnce_char_none hnoq, rfl, rfl⟩)
  have hsemi : ';' ∉ ('/' :: path : Str) := by
    intro hmem
    rcases List.mem_cons.mp hmem with hx | hx
    · exact absurd hx.symm (by decide)
    · exact (hpath ';' hx).2.2.1 rfl
  have hparseB := urlparse_eval hsplitB (Or.inl hsemi)
  have hparseQ := urlparse_eval hsplitQ (Or.inl hsemi)
  have hparseF := urlparse_eval hsplitF (Or.inl hsemi)
  have hparseR := urlparse_eval hsplitR (Or.inl hsemi)
  have hurlshapeB : ("https://".toList ++ host ++ '/' :: path ++ '?' :: qs ++
      '#' :: fs : Str) =
      "https://".toList ++ host ++ '/' :: (path ++ '?' :: qs ++ '#' :: fs) := by
    simp
  have hurlshapeQ : ("https://".toList ++ host ++ '/' :: path ++
      '?' :: qs : Str) =
      "https://".toList ++ host ++ '/' :: (path ++ '?' :: qs) := by
    simp
  have hurlshapeF : ("https://".toList ++ host ++ '/' :: path ++
      '#' :: fs : Str) =
      "https://".toList ++ host ++ '/' :: (path ++ '#' :: fs) := by
    simp
  refine ⟨?_, ?_, ?_⟩
  · unfold normalize_linkedin_profile_url
    rw [hurlshapeQ, hparseQ, hparseR]
  · unfold normalize_linkedin_profile_url
    rw [hurlshapeF, hparseF, hparseR]
  · unfold normalize_linkedin_profile_url
    rw [hurlshapeB, hparseB, hparseR]

def sInJanedoeSeg : Str := "in/janedoe".toList
def sTrkQuery : Str := "trk=people".toList
def sTopFragment : Str := "top".toList

set_option maxRecDepth 10000 in
theorem C5_query_fragment_ignored_witness :
    (normalize_linkedin_profile_url
        ("https://".toList ++ sLinkedinDomain ++ '/' :: sInJanedoeSeg ++
          '?' :: sTrkQuery) =
      normalize_linkedin_profile_url
        ("https://".toList ++ sLinkedinDomain ++ '/' :: sInJanedoeSeg)) ∧
    (normalize_linkedin_profile_url
        ("https://".toList ++ sLinkedinDomain ++ '/' :: sInJanedoeSeg ++
          '#' :: sTopFragment) =
      normalize_linkedin_profile_url
        ("https://".toList ++ sLinkedinDomain ++ '/' :: sInJanedoeSeg)) ∧
    (normalize_linkedin_profile_url
        ("https://".toList ++ sLinkedinDomain ++ '/' :: sInJanedoeSeg ++
          '?' :: sTrkQuery ++ '#' :: sTopFragment) =
      normalize_linkedin_profile_url
        ("https://".toList ++ sLinkedinDomain ++ '/' :: sInJanedoeSeg)) :=
  C5_query_fragment_ignored sLinkedinDomain sInJanedoeSeg sTrkQuery sTopFragment
    (by decide) (by decide) (by decide) (by decide)

end LinkedInBackend
